import Mathlib

/-!
# Verification of the agent.kernel conversation runtime

A shallow embedding of the core of the `agent.kernel` repository:

* the `Kernel` conversation store (`src/core/kernel/session-store.ts`):
  entry tree, branch pointer, token budget, compaction, JSONL persistence;
* the retry wrapper and the tool-execution phases of the orchestration
  loop (`src/core/agent/loop.ts`);
* session metadata handling (`session-store.ts`);
* the `EventStream` push/pull channel (`src/event-stream.ts`);
* the `KernelCache` LRU+TTL registry.

Machine integers are modelled as `Nat` (ids, token counts, timestamps are
non-negative and far from any overflow boundary in the source).  File I/O is
modelled by carrying the file contents in the state; `Date.now()` is passed
explicitly as a `now : Nat` argument.  JSON serialization is assumed to be a
faithful round trip on the record types involved.
-/

namespace AgentKernel

/-- Token counts of one LLM step (`Usage` in `kernel/types.ts`); only the
fields the kernel inspects (`input`) plus `output` are carried. -/
structure Usage where
  input : Nat
  output : Nat
  deriving Repr, DecidableEq, Inhabited

/-- A tool invocation requested by the LLM (`ToolCallInfo`).  The raw JSON
argument object is modelled as an opaque `String`. -/
structure ToolCallInfo where
  toolCallId : String
  toolName : String
  input : String
  deriving Repr, DecidableEq, Inhabited

/-- One conversational turn (`AgentEntry` in `kernel/types.ts`).  User content
parts are modelled as opaque strings (their internal structure is never
inspected by the kernel beyond serialization). -/
inductive AgentEntry where
  | user (parts : List String)
  | assistant (text : String) (reasoning : Option String) (toolCalls : List ToolCallInfo)
      (stopReason : Option String) (error : Option String) (usage : Option Usage)
  | toolResult (toolCallId : String) (toolName : String) (content : String) (isError : Bool)
  | summary (text : String)
  deriving Repr, DecidableEq, Inhabited

/-- An `AgentEntry` decorated with persistence metadata (`StoredEntry`). -/
structure StoredEntry where
  entry : AgentEntry
  id : Nat
  parentId : Option Nat
  timestamp : Nat
  deriving Repr, DecidableEq, Inhabited

/-- Return value of `kernel.append()` / `kernel.compact()` (`AppendResult`). -/
inductive AppendResult where
  | ok (id : Nat)
  | fail (reason : String)
  deriving Repr, DecidableEq, Inhabited

/-! ## The entry map

`private readonly byId = new Map<number, StoredEntry>()` — a JS `Map` is
modelled as an association list in insertion order: `set` replaces the value
at the first occurrence of the key or appends a fresh pair, `get` reads the
first occurrence.  The only iteration over the map in the source (the delete
loop of `materialize`) is order-independent (a filter). -/

/-- The in-memory conversation tree: id to stored entry. -/
abbrev EntryMap := List (Nat × StoredEntry)

/-- `byId.get(i)` -/
def lookupE (m : EntryMap) (i : Nat) : Option StoredEntry :=
  (m.find? (fun p => p.1 == i)).map (·.2)

/-- `byId.set(i, e)` — replace in place or append. -/
def setE : EntryMap → Nat → StoredEntry → EntryMap
  | [], i, e => [(i, e)]
  | (j, x) :: rest, i, e =>
    if j == i then (i, e) :: rest else (j, x) :: setE rest i e

/-- The delete loop of `materialize`: remove every id in `[fromId, toId]`. -/
def deleteRange (m : EntryMap) (fromId toId : Nat) : EntryMap :=
  m.filter (fun p => !(decide (fromId ≤ p.1) && decide (p.1 ≤ toId)))

/-! ## Kernel state -/

/-- The `Kernel` class state (`session-store.ts`).  `kernelFile` carries the
parsed contents of `kernel.jsonl` when persistence is configured (`none` in
in-memory mode); `log.jsonl` (a UI-only append-only mirror) is not modelled.
`tokenLimit` (`Infinity` by default) is omitted: no verified claim reads it. -/
structure Kernel where
  byId : EntryMap
  nextId : Nat
  tokenUsed : Nat
  leafId : Option Nat
  kernelFile : Option (List StoredEntry)
  deriving Repr, DecidableEq, Inhabited

/-- `createKernel()` without persistence options: the fresh in-memory state. -/
def createKernel : Kernel :=
  { byId := [], nextId := 0, tokenUsed := 0, leafId := none, kernelFile := none }

/-- A fresh persisted kernel whose session directory holds no `kernel.jsonl`
yet (first open of a session). -/
def createPersistedKernel : Kernel :=
  { createKernel with kernelFile := some [] }

/-- `budget.used` — the getter reads the private `tokenUsed` field. -/
def Kernel.budgetUsed (k : Kernel) : Nat :=
  k.tokenUsed

/-- `normalizeEntry` re-encodes binary content parts as base64 before
persisting; on this model's already-textual parts it is the identity. -/
def normalizeEntry (e : AgentEntry) : AgentEntry := e

/-- JS truthiness of `record.usage?.input` for an entry: the input token count
when the entry is an `assistant` entry carrying usage with non-zero input. -/
def truthyUsageInput : AgentEntry → Option Nat
  | .assistant _ _ _ _ _ (some u) => if u.input = 0 then none else some u.input
  | _ => none

/-- `private write(entry)`: assign `nextId`, link to the current leaf,
timestamp, insert, advance the leaf, update the token budget, append the
record to `kernel.jsonl`. -/
def Kernel.write (k : Kernel) (e : AgentEntry) (now : Nat) : Kernel × AppendResult :=
  let record : StoredEntry :=
    { entry := normalizeEntry e, id := k.nextId, parentId := k.leafId, timestamp := now }
  let k' : Kernel :=
    { k with
      byId := setE k.byId record.id record
      leafId := some record.id
      nextId := k.nextId + 1
      tokenUsed := (truthyUsageInput record.entry).getD k.tokenUsed
      kernelFile := k.kernelFile.map (· ++ [record]) }
  (k', .ok record.id)

/-- `append(entry)` — `write` plus the (unmodelled) `log.jsonl` mirror line. -/
def Kernel.append (k : Kernel) (e : AgentEntry) (now : Nat) : Kernel × AppendResult :=
  k.write e now

/-- `private walkBranch(fromId)`: follow `parentId` links, returning the
path root-first.  The source loop terminates because parent ids are strictly
smaller than child ids; the model makes this explicit with a fuel argument
(`i + 1` steps always suffice on such states; pathological maps just truncate). -/
def walkBranch (m : EntryMap) : Nat → Nat → List StoredEntry
  | 0, _ => []
  | fuel + 1, i =>
    match lookupE m i with
    | none => []
    | some e =>
      (match e.parentId with
       | none => []
       | some p => walkBranch m fuel p) ++ [e]

/-- `read()`: entries along the current branch, root to leaf. -/
def Kernel.read (k : Kernel) : List StoredEntry :=
  match k.leafId with
  | none => []
  | some l => walkBranch k.byId (l + 1) l

/-- `peek()`: the entry at `leafId`. -/
def Kernel.peek (k : Kernel) : Option StoredEntry :=
  match k.leafId with
  | none => none
  | some l => lookupE k.byId l

/-- `get contextSize()`: the leaf entry's input usage if the leaf is an
`assistant` entry, `0` otherwise. -/
def Kernel.contextSize (k : Kernel) : Nat :=
  match k.peek with
  | some r =>
    match r.entry with
    | .assistant _ _ _ _ _ usage => (usage.map (·.input)).getD 0
    | _ => 0
  | none => 0

/-- `branch(toId)`: move the leaf pointer; throws (`none`) when the id is
absent from the tree. -/
def Kernel.branch (k : Kernel) (toId : Nat) : Option Kernel :=
  match lookupE k.byId toId with
  | none => none
  | some _ => some { k with leafId := some toId }

/-- `private writeCompaction(entry)`: assign an id to the compaction marker,
advance the leaf to it and append the marker line to `kernel.jsonl` — without
inserting anything into `byId`.  The marker line is elided from the modelled
file because `materialize` rewrites the file immediately afterwards. -/
def Kernel.writeCompaction (k : Kernel) : Kernel × AppendResult :=
  let id := k.nextId
  ({ k with nextId := k.nextId + 1, leafId := some id }, .ok id)

/-- `private materialize(fromId, toId, summary)`: drop the compacted range
from `byId`, splice the summary in at the compaction id (inheriting the
`parentId` that `fromId` had), and rewrite `kernel.jsonl` with the clean
current branch. -/
def Kernel.materialize (k : Kernel) (fromId toId : Nat) (summary : AgentEntry) (now : Nat) :
    Kernel :=
  let compactionId := k.leafId.getD 0
  let rangeStartParentId := (lookupE k.byId fromId).bind (·.parentId)
  let byId2 := deleteRange k.byId fromId toId
  let compactionRecord : StoredEntry :=
    { entry := summary, id := compactionId, parentId := rangeStartParentId, timestamp := now }
  let k2 : Kernel := { k with byId := setE byId2 compactionId compactionRecord }
  { k2 with kernelFile := k2.kernelFile.map (fun _ => k2.read) }

/-- `compact(fromId, toId, summaryText)`: write a compaction marker, then
materialize the summary in place of the range. -/
def Kernel.compact (k : Kernel) (fromId toId : Nat) (summaryText : String) (now : Nat) :
    Kernel × AppendResult :=
  let summaryEntry : AgentEntry := .summary summaryText
  let (k1, result) := k.writeCompaction
  match result with
  | .ok id => (k1.materialize fromId toId summaryEntry now, .ok id)
  | .fail r => (k1, .fail r)

/-- One record of the `loadFromFile` replay loop: insert, advance the leaf,
update the budget, bump `nextId` past the observed id. -/
def loadStep (k : Kernel) (record : StoredEntry) : Kernel :=
  { k with
    byId := setE k.byId record.id record
    leafId := some record.id
    tokenUsed := (truthyUsageInput record.entry).getD k.tokenUsed
    nextId := if k.nextId ≤ record.id then record.id + 1 else k.nextId }

/-- `private loadFromFile(filePath)`: replay `kernel.jsonl` line by line into
a fresh kernel (run by the constructor when the file exists).  The re-opened
kernel keeps the same file contents on disk. -/
def Kernel.loadFromFile (lines : List StoredEntry) : Kernel :=
  lines.foldl loadStep { createKernel with kernelFile := some lines }

/-- The record `append` inserts for entry `e` at state `k`. -/
def appendRecord (k : Kernel) (e : AgentEntry) (now : Nat) : StoredEntry :=
  { entry := normalizeEntry e, id := k.nextId, parentId := k.leafId, timestamp := now }

/-- The branch prefix strictly above a compacted range: the walk upward from
the parent the range's first entry had (`none` when the range starts at a
root). -/
def rangePrefix (m : EntryMap) (pfrom : Option Nat) : List StoredEntry :=
  match pfrom with
  | none => []
  | some p => walkBranch m (p + 1) p

/-! ## Operation sequences

The kernel's public mutators, as an operation language: every kernel a client
can build is `applyOps createKernel ops` for some list of operations.  A
`branch` to an unknown id throws in the source and leaves the state
unchanged, which is how `applyOp` models it. -/

inductive KOp where
  | app (e : AgentEntry) (now : Nat)
  | comp (fromId toId : Nat) (text : String) (now : Nat)
  | br (toId : Nat)

/-- Apply one public kernel operation. -/
def applyOp (k : Kernel) : KOp → Kernel
  | .app e now => (k.append e now).1
  | .comp f t s now => (k.compact f t s now).1
  | .br i => (k.branch i).getD k

/-- Apply a sequence of public kernel operations. -/
def applyOps (k : Kernel) (ops : List KOp) : Kernel :=
  ops.foldl applyOp k

/-- The ids handed out (by `append` and `compact`) while replaying `ops`
from state `k`. -/
def assignedWith (k : Kernel) : List KOp → List Nat
  | [] => []
  | op :: rest =>
    (match op with
     | .app _ _ => [k.nextId]
     | .comp _ _ _ _ => [k.nextId]
     | .br _ => []) ++ assignedWith (applyOp k op) rest

/-- The ids assigned over a whole client history starting from a fresh kernel. -/
def assignedIds (ops : List KOp) : List Nat :=
  assignedWith createKernel ops

/-- Run a list of `append`s (entry plus timestamp) against a kernel. -/
def appendAll (k : Kernel) : List (AgentEntry × Nat) → Kernel
  | [] => k
  | (e, now) :: rest => appendAll (k.append e now).1 rest

/-- Agreement of the replayed in-memory state: `byId`, `leafId`, `nextId` and
`tokenUsed` (the fields `loadFromFile` rebuilds). -/
def coreAgrees (a b : Kernel) : Prop :=
  a.byId = b.byId ∧ a.leafId = b.leafId ∧ a.nextId = b.nextId ∧ a.tokenUsed = b.tokenUsed

/-! ## Session metadata (`session-store.ts`)

`meta.json` holds `{createdAt, title?}`; the file contents are modelled as an
`Option SessionMeta` (absent or parsed), a patch as the `title` key being
present with a value or absent. -/

/-- Parsed `meta.json` contents (`SessionMeta` in `kernel/types.ts`). -/
structure SessionMeta where
  createdAt : Nat
  title : Option String
  deriving Repr, DecidableEq, Inhabited

/-- A metadata patch (`Partial<Omit<SessionMeta, 'createdAt'>>`). -/
abbrev MetaPatch := Option String

/-- The meta-merge step of the Kernel constructor: write
`{createdAt: Date.now(), ...options.meta}` when `meta.json` does not exist
yet; write `{...existing, ...options.meta}` when it exists and the supplied
patch has at least one key; otherwise leave the file untouched. -/
def openSessionMeta (existing : Option SessionMeta) (meta : Option MetaPatch) (now : Nat) :
    SessionMeta :=
  match existing with
  | none => { createdAt := now, title := meta.getD none }
  | some ex =>
    match meta with
    | some (some t) => { ex with title := some t }
    | _ => ex

/-- `updateSessionMeta(dir, sessionId, meta)`: merge the patch into an
existing `meta.json` (`{...existing, ...meta}`); silent no-op when the file
is absent.  `createdAt` is excluded from the patch type. -/
def updateSessionMeta (existing : Option SessionMeta) (patch : MetaPatch) :
    Option SessionMeta :=
  match existing with
  | none => none
  | some ex =>
    some { ex with title := match patch with | some t => some t | none => ex.title }

/-! ## Retry (`loop.ts`, `withRetry`)

The wrapped call and the cancellation signal are the asynchronous inputs of
`withRetry`; an environment records the outcome of the `i`-th invocation of
`fn` (1-indexed) and the observed value of `signal.aborted` at the two sites
where the source reads it during attempt `i`: the top of the loop body and
the catch handler. -/

structure RetryEnv (E A : Type) where
  call : Nat → Except E A
  abortedBefore : Nat → Bool
  abortedAfter : Nat → Bool

/-- What `withRetry` can throw: the `DOMException('Aborted', 'AbortError')`
raised at the top-of-loop check, a propagated error of the wrapped function,
or the degenerate `throw lastErr` fall-through (reachable only when
`maxAttempts = 0`, where `lastErr` is still undefined). -/
inductive RetryErr (E : Type) where
  | abortError
  | failed (e : E)
  | invalid
  deriving Repr, DecidableEq

/-- The for-loop of `withRetry`; returns the outcome together with the number
of invocations of the wrapped function.  `fuel` bounds the remaining
iterations; `maxAttempts + 1` always suffices since `attempt` grows by one
per iteration and the loop exits once `attempt > maxAttempts`. -/
def withRetryGo {E A : Type} (env : RetryEnv E A) (maxAttempts : Nat) :
    Nat → Nat → Option E → (Except (RetryErr E) A) × Nat
  | 0, _, lastErr =>
    (.error (match lastErr with | some e => .failed e | none => .invalid), 0)
  | fuel + 1, attempt, lastErr =>
    if attempt > maxAttempts then
      (.error (match lastErr with | some e => .failed e | none => .invalid), 0)
    else if env.abortedBefore attempt then
      (.error .abortError, 0)
    else
      match env.call attempt with
      | .ok a => (.ok a, 1)
      | .error e =>
        if env.abortedAfter attempt then (.error (.failed e), 1)
        else if attempt = maxAttempts then (.error (.failed e), 1)
        else
          let r := withRetryGo env maxAttempts fuel (attempt + 1) (some e)
          (r.1, r.2 + 1)

/-- `withRetry(fn, opts, signal)`. -/
def withRetry {E A : Type} (env : RetryEnv E A) (maxAttempts : Nat) :
    (Except (RetryErr E) A) × Nat :=
  withRetryGo env maxAttempts (maxAttempts + 1) 1 none

/-- The error carried by the run's terminal `agent_end` event as a function
of the model step's outcome: `_run`'s catch-all converts a thrown error into
`agent_end {error}` and `stream.end`, and the success path (no tool calls,
steering or follow-ups pending) ends the run with a plain `agent_end`. -/
def terminalEventError {E A : Type} : Except (RetryErr E) A → Option (RetryErr E)
  | .ok _ => none
  | .error e => some e

/-- A model-stream stub failing on its first two invocations and succeeding
on the third, with a never-aborted signal. -/
def retryEnv3 : RetryEnv Nat Nat :=
  { call := fun i => if i ≤ 2 then .error i else .ok 42
    abortedBefore := fun _ => false
    abortedAfter := fun _ => false }

/-- A model-stream stub failing on every invocation (attempt `i` throws
`10 * i`), with a never-aborted signal. -/
def retryEnv2 : RetryEnv Nat Nat :=
  { call := fun i => .error (10 * i)
    abortedBefore := fun _ => false
    abortedAfter := fun _ => false }

/-- A model-stream stub that always fails, under a signal observed aborted
from the catch handler of attempt 2 onwards. -/
def retryEnvAbort : RetryEnv Nat Nat :=
  { call := fun _ => .error 1
    abortedBefore := fun i => decide (2 < i)
    abortedAfter := fun i => decide (2 ≤ i) }

/-! ## Tools and the tool-execution phases (`loop.ts`)

Tool execution is asynchronous in the source; its pure content is captured by
abstracting each tool's `execute` as a function from (call id, validated
input) to a returned result or a thrown error message, and the
`getSteeringMessages` accessor as the stream of values successive polls
return.  Cancellation tokens (passed through unchanged in sequential mode,
chained per call in parallel mode) do not influence these outcomes and are
not modelled. -/

/-- A tool's return value (`ToolResult`); `details` is UI-only and omitted. -/
structure ToolResult where
  content : String
  isError : Bool
  deriving Repr, DecidableEq, Inhabited

/-- A committed/emitted result (`ToolResultInfo`). -/
structure ToolResultInfo where
  toolCallId : String
  toolName : String
  content : String
  isError : Bool
  deriving Repr, DecidableEq, Inhabited

/-- A declared tool (`AgentTool`): its name, the behaviour of
`validateInput` against its schema (parsed value or error detail; a
schema-less tool validates as the identity), and the outcome of `execute`. -/
structure AgentTool where
  name : String
  validate : String → Except String String
  exec : String → String → Except String ToolResult

/-- The fixed content `skipTool` writes. -/
def skipContent : String := "Skipped: user interrupted."

/-- The result `skipTool` returns. -/
def skipResult : ToolResult := { content := skipContent, isError := true }

/-- The `tool_result` entry committed to the kernel for one call. -/
def toolResultEntry (tc : ToolCallInfo) (r : ToolResult) : AgentEntry :=
  .toolResult tc.toolCallId tc.toolName r.content r.isError

/-- The `ToolResultInfo` pushed to the stream and collected for `turn_end`. -/
def resInfo (tc : ToolCallInfo) (r : ToolResult) : ToolResultInfo :=
  { toolCallId := tc.toolCallId, toolName := tc.toolName
    content := r.content, isError := r.isError }

/-- The info recorded for a skipped call. -/
def skipInfo (tc : ToolCallInfo) : ToolResultInfo :=
  resInfo tc skipResult

/-- `runSingleTool`: look the tool up (a missing tool throws and the catch-all
turns it into an error result), validate the input (error result on
failure), run `execute` (a throw becomes an error result).  The `Bool`
records whether `execute` was invoked. -/
def runSingleToolC (tools : List AgentTool) (tc : ToolCallInfo) : ToolResult × Bool :=
  match tools.find? (fun t => t.name == tc.toolName) with
  | none => ({ content := "Tool not found: " ++ tc.toolName, isError := true }, false)
  | some tool =>
    match tool.validate tc.input with
    | .error msg => ({ content := msg, isError := true }, false)
    | .ok v =>
      match tool.exec tc.toolCallId v with
      | .ok r => (r, true)
      | .error msg => ({ content := msg, isError := true }, true)

/-- Aggregate outcome of one tool batch: the kernel after the commits, the
results in emission order, the steering handed to the next turn, the indices
of the calls whose `execute` ran, and how many times steering was polled. -/
structure ToolBatchOut where
  kernel : Kernel
  results : List ToolResultInfo
  steeringOut : Option (List AgentEntry)
  executed : List Nat
  pollCount : Nat

/-- `executeToolsSequential`'s loop.  `polls` lists the values successive
`getSteeringMessages` polls return (one poll after each executed call; none
after a skipped call); `idx` is the position of the head call in the batch. -/
def executeToolsSequentialGo (tools : List AgentTool) (now : Nat) :
    Kernel → List (List AgentEntry) → Nat → List ToolCallInfo →
      Option (List AgentEntry) → ToolBatchOut
  | k, _, _, [], steering =>
    { kernel := k, results := [], steeringOut := steering, executed := [], pollCount := 0 }
  | k, polls, idx, tc :: rest, steering =>
    match steering with
    | some s =>
      let k' := (k.append (toolResultEntry tc skipResult) now).1
      let out := executeToolsSequentialGo tools now k' polls (idx + 1) rest (some s)
      { out with results := skipInfo tc :: out.results }
    | none =>
      let rd := runSingleToolC tools tc
      let k' := (k.append (toolResultEntry tc rd.1) now).1
      let steer := polls.headD []
      let steering' := if steer.isEmpty then none else some steer
      let out := executeToolsSequentialGo tools now k' polls.tail (idx + 1) rest steering'
      { out with
        results := resInfo tc rd.1 :: out.results
        executed := (if rd.2 then [idx] else []) ++ out.executed
        pollCount := out.pollCount + 1 }

/-- `executeToolsSequential`. -/
def executeToolsSequential (toolCalls : List ToolCallInfo) (tools : List AgentTool)
    (k : Kernel) (polls : List (List AgentEntry)) (now : Nat) : ToolBatchOut :=
  executeToolsSequentialGo tools now k polls 0 toolCalls none

/-- The indices of the batch whose `execute` is invoked when every call runs
(what `Promise.allSettled` over `runSingleTool` does in parallel mode). -/
def executedIdx (tools : List AgentTool) (idx : Nat) : List ToolCallInfo → List Nat
  | [] => []
  | tc :: rest =>
    (if (runSingleToolC tools tc).2 then [idx] else []) ++ executedIdx tools (idx + 1) rest

/-- The commit loop of `executeToolsParallel`: write each (call, result) pair
to the kernel and collect the emitted infos, in request order. -/
def commitResults (now : Nat) : Kernel → List (ToolCallInfo × ToolResult) →
    Kernel × List ToolResultInfo
  | k, [] => (k, [])
  | k, (tc, r) :: rest =>
    let k' := (k.append (toolResultEntry tc r) now).1
    let out := commitResults now k' rest
    (out.1, resInfo tc r :: out.2)

/-- `executeToolsParallel`: run every call (all settle before anything else),
poll steering exactly once, then either commit the skip result for every call
(steering arrived) or commit every real result, in request order. -/
def executeToolsParallel (toolCalls : List ToolCallInfo) (tools : List AgentTool)
    (k : Kernel) (polls : List (List AgentEntry)) (now : Nat) : ToolBatchOut :=
  let settled := toolCalls.map (runSingleToolC tools)
  let steer := polls.headD []
  let steeringArrived := !steer.isEmpty
  let outcomes :=
    if steeringArrived then toolCalls.map (fun tc => (tc, skipResult))
    else toolCalls.zip (settled.map (·.1))
  let committed := commitResults now k outcomes
  { kernel := committed.1
    results := committed.2
    steeringOut := if steeringArrived then some steer else none
    executed := executedIdx tools 0 toolCalls
    pollCount := 1 }

/-- A tool whose `execute` returns a successful result. -/
def toolA : AgentTool :=
  { name := "a", validate := fun s => .ok s
    exec := fun _ _ => .ok { content := "ra", isError := false } }

/-- A tool whose `execute` throws. -/
def toolB : AgentTool :=
  { name := "b", validate := fun s => .ok s, exec := fun _ _ => .error "boom" }

def tcA : ToolCallInfo := { toolCallId := "c1", toolName := "a", input := "x" }

def tcB : ToolCallInfo := { toolCallId := "c2", toolName := "b", input := "y" }

/-! ## EventStream (`src/event-stream.ts`)

The channel state observable by one producer and one sequential consumer:
the buffered `queue`, whether the consumer is suspended in `waiters` (a
single sequential consumer registers at most one), the `done` flag, plus the
consumer's history (`received`) and whether its iteration has returned.  A
run is an arbitrary interleaving of producer actions and consumer polls; the
async scheduler decides the interleaving, the model quantifies over it. -/

structure StreamState (T : Type) where
  queue : List T
  waiter : Bool
  done : Bool
  received : List T
  finished : Bool
  deriving Repr, DecidableEq, Inhabited

/-- Atomic actions: `push e`, `fin` (`end(result)` — `error(err)` behaves
identically toward the iterator), and one consumer `poll` (one iteration of
the async-iterator loop body). -/
inductive StreamAct (T : Type) where
  | push (e : T)
  | fin
  | poll
  deriving Repr, DecidableEq

/-- One step: `push` hands the item to the suspended consumer or buffers it
(never blocking); `fin` sets `done` and wakes the suspended consumer with the
`null` termination signal; `poll` takes the buffer head if any, else returns
(ends iteration) if `done`, else suspends.  A `poll` while suspended or
finished is a no-op — a single sequential consumer cannot poll in those
states. -/
def streamStep {T : Type} (s : StreamState T) : StreamAct T → StreamState T
  | .push e =>
    if s.waiter then { s with waiter := false, received := s.received ++ [e] }
    else { s with queue := s.queue ++ [e] }
  | .fin =>
    if s.waiter then { s with done := true, waiter := false, finished := true }
    else { s with done := true }
  | .poll =>
    if s.finished || s.waiter then s
    else
      match s.queue with
      | e :: rest => { s with queue := rest, received := s.received ++ [e] }
      | [] =>
        if s.done then { s with finished := true }
        else { s with waiter := true }

/-- A freshly constructed stream with its consumer about to iterate. -/
def streamInit (T : Type) : StreamState T :=
  { queue := [], waiter := false, done := false, received := [], finished := false }

/-- Run an interleaving of actions. -/
def runActs {T : Type} (s : StreamState T) (acts : List (StreamAct T)) : StreamState T :=
  acts.foldl streamStep s

def isProdAct {T : Type} : StreamAct T → Bool
  | .push _ => true
  | .fin => true
  | .poll => false

/-- The producer's subsequence of an interleaving. -/
def prodActs {T : Type} (acts : List (StreamAct T)) : List (StreamAct T) :=
  acts.filter isProdAct

/-- Let the consumer keep polling; `queue.length + 1` polls always complete
the iteration once the stream is done. -/
def pollRepeat {T : Type} : Nat → StreamState T → StreamState T
  | 0, s => s
  | n + 1, s => pollRepeat n (streamStep s .poll)

/-! ## KernelCache (`kernel-cache.ts`) -/

/-- One cache slot: session id, the cached kernel instance, and the clock
value of its last access. -/
structure CacheEntry where
  key : String
  kernel : Kernel
  lastAccess : Nat
  deriving Repr, DecidableEq, Inhabited

/-- Modelled from the spec: the LRU+TTL mechanics of `KernelCache` live in
the external `lru-cache` dependency, which is not part of this repository's
sources; spec §4.4/§9 describe the behaviour (an ordered map in access order
— least recently used first — plus per-entry expiry timestamps compared
against an injected clock). -/
structure KernelCacheM where
  entries : List CacheEntry
  maxSize : Nat
  ttl : Nat
  deriving Repr, DecidableEq, Inhabited

/-- Modelled from the spec: the miss path of `get` — construct the kernel via
the Kernel's persisted-session path (replaying the session's `kernel.jsonl`
from `disk`), store it at the most-recently-used position with a fresh
timestamp, and evict the least-recently-used entry when the maximum size is
exceeded. -/
def KernelCacheM.insertMiss (c : KernelCacheM) (disk : String → List StoredEntry)
    (sid : String) (now : Nat) : Kernel × KernelCacheM :=
  let kernel := Kernel.loadFromFile (disk sid)
  let inserted := c.entries.filter (fun x => !(x.key == sid))
      ++ [{ key := sid, kernel := kernel, lastAccess := now }]
  (kernel,
   { c with entries := if c.maxSize < inserted.length then inserted.tail else inserted })

/-- Modelled from the spec: `get(sessionId)` — return the cached kernel when
present and not inactive for longer than the TTL (moving it to the
most-recently-used position and restarting its TTL); treat an absent or
expired entry as a cold miss. -/
def KernelCacheM.get (c : KernelCacheM) (disk : String → List StoredEntry)
    (sid : String) (now : Nat) : Kernel × KernelCacheM :=
  match c.entries.find? (fun en => en.key == sid) with
  | some en =>
    if now ≤ en.lastAccess + c.ttl then
      (en.kernel,
       { c with entries := c.entries.filter (fun x => !(x.key == sid))
           ++ [{ key := sid, kernel := en.kernel, lastAccess := now }] })
    else c.insertMiss disk sid now
  | none => c.insertMiss disk sid now

/-! ## Concrete states for counterexamples and witnesses -/

/-- A kernel holding an assistant entry with input usage 5 followed by a user
entry at the leaf. -/
def c1Kernel : Kernel :=
  ((createKernel.append (.assistant "hi" none [] (some "stop") none (some ⟨5, 7⟩)) 100).1.append
    (.user ["ok"]) 101).1

/-- A kernel holding three user entries (ids 0, 1, 2) on one branch. -/
def c2Kernel : Kernel :=
  (((createKernel.append (.user ["m0"]) 100).1.append (.user ["m1"]) 101).1.append
    (.user ["m2"]) 102).1

/-! ## Map lemmas -/

theorem lookupE_nil (i : Nat) : lookupE [] i = none := rfl

theorem lookupE_cons_self (i : Nat) (x : StoredEntry) (rest : EntryMap) :
    lookupE ((i, x) :: rest) i = some x := by
  unfold lookupE
  rw [List.find?_cons_of_pos _ (by simp)]
  rfl

theorem lookupE_cons_ne {j i : Nat} (x : StoredEntry) (rest : EntryMap) (h : j ≠ i) :
    lookupE ((j, x) :: rest) i = lookupE rest i := by
  unfold lookupE
  rw [List.find?_cons_of_neg _ (by simpa using h)]

theorem lookupE_mem {m : EntryMap} {i : Nat} {e : StoredEntry}
    (h : lookupE m i = some e) : (i, e) ∈ m := by
  induction m with
  | nil => simp [lookupE_nil] at h
  | cons p rest ih =>
    obtain ⟨j, x⟩ := p
    by_cases hji : j = i
    · subst hji
      rw [lookupE_cons_self] at h
      obtain rfl : x = e := by injection h
      exact List.mem_cons_self _ _
    · rw [lookupE_cons_ne _ _ hji] at h
      exact List.mem_cons_of_mem _ (ih h)

theorem lookupE_setE_self (m : EntryMap) (i : Nat) (e : StoredEntry) :
    lookupE (setE m i e) i = some e := by
  induction m with
  | nil => simp [setE, lookupE_cons_self]
  | cons p rest ih =>
    obtain ⟨j, x⟩ := p
    by_cases h : j = i
    · simp [setE, h, lookupE_cons_self]
    · simp only [setE, beq_iff_eq, h, if_false]
      rw [lookupE_cons_ne _ _ h]
      exact ih

theorem lookupE_setE_ne (m : EntryMap) {i j : Nat} (e : StoredEntry) (h : j ≠ i) :
    lookupE (setE m i e) j = lookupE m j := by
  induction m with
  | nil => simp [setE, lookupE_nil, lookupE_cons_ne _ _ (Ne.symm h)]
  | cons p rest ih =>
    obtain ⟨a, x⟩ := p
    by_cases ha : a = i
    · subst ha
      simp only [setE, beq_self_eq_true, if_true]
      rw [lookupE_cons_ne _ _ (Ne.symm h), lookupE_cons_ne _ _ (Ne.symm h)]
    · simp only [setE, beq_iff_eq, ha, if_false]
      by_cases hj : a = j
      · subst hj
        rw [lookupE_cons_self, lookupE_cons_self]
      · rw [lookupE_cons_ne _ _ hj, lookupE_cons_ne _ _ hj]
        exact ih

theorem lookupE_deleteRange (m : EntryMap) (a b i : Nat) :
    lookupE (deleteRange m a b) i =
      if a ≤ i ∧ i ≤ b then none else lookupE m i := by
  induction m with
  | nil => simp [deleteRange, lookupE_nil]
  | cons p rest ih =>
    obtain ⟨j, x⟩ := p
    have hstep : deleteRange ((j, x) :: rest) a b =
        if (!(decide (a ≤ j) && decide (j ≤ b))) = true
        then (j, x) :: deleteRange rest a b
        else deleteRange rest a b := by
      simp [deleteRange, List.filter_cons]
    by_cases hkeep : a ≤ j ∧ j ≤ b
    · have hfilter : (!(decide (a ≤ j) && decide (j ≤ b))) = false := by
        simp [hkeep.1, hkeep.2]
      rw [hstep, hfilter]
      simp only [Bool.false_eq_true, if_false]
      by_cases hji : j = i
      · subst hji
        rw [if_pos hkeep] at ih ⊢
        exact ih
      · rw [lookupE_cons_ne _ _ hji]
        exact ih
    · have hfilter : (!(decide (a ≤ j) && decide (j ≤ b))) = true := by
        rcases Decidable.not_and_iff_or_not.mp hkeep with h | h <;> simp [h]
      rw [hstep, if_pos hfilter]
      by_cases hji : j = i
      · subst hji
        rw [if_neg hkeep, lookupE_cons_self, lookupE_cons_self]
      · rw [lookupE_cons_ne _ _ hji, lookupE_cons_ne _ _ hji]
        exact ih

theorem mem_setE {m : EntryMap} {i : Nat} {e : StoredEntry} {p : Nat × StoredEntry}
    (h : p ∈ setE m i e) : p = (i, e) ∨ p ∈ m := by
  induction m with
  | nil => simpa [setE] using h
  | cons q rest ih =>
    obtain ⟨a, x⟩ := q
    by_cases ha : a = i
    · subst ha
      simp only [setE, beq_self_eq_true, if_true] at h
      rcases List.mem_cons.mp h with h | h
      · exact Or.inl h
      · exact Or.inr (List.mem_cons_of_mem _ h)
    · simp only [setE, beq_iff_eq, ha, if_false] at h
      rcases List.mem_cons.mp h with h | h
      · exact Or.inr (h ▸ List.mem_cons_self _ _)
      · rcases ih h with h' | h'
        · exact Or.inl h'
        · exact Or.inr (List.mem_cons_of_mem _ h')

theorem mem_deleteRange {m : EntryMap} {a b : Nat} {p : Nat × StoredEntry}
    (h : p ∈ deleteRange m a b) : p ∈ m :=
  List.mem_of_mem_filter h

/-! ## Well-formed kernel states

Invariants stated in the spec's data model (§3): stored keys match entry ids,
parent ids are strictly smaller than child ids (no cycles), all ids are below
`nextId`, and the leaf points below `nextId`.  Every state reachable by the
kernel's operations satisfies them. -/

/-- Well-formedness of a kernel state. -/
structure Kernel.WF (k : Kernel) : Prop where
  keysMatch : ∀ p ∈ k.byId, (p : Nat × StoredEntry).2.id = p.1
  keysLt : ∀ p ∈ k.byId, (p : Nat × StoredEntry).1 < k.nextId
  parentsLt : ∀ p ∈ k.byId, ∀ q ∈ (p : Nat × StoredEntry).2.parentId, q < p.1
  leafLt : ∀ l ∈ k.leafId, l < k.nextId

instance (k : Kernel) : Decidable k.WF :=
  decidable_of_iff
    ((∀ p ∈ k.byId, (p : Nat × StoredEntry).2.id = p.1) ∧
     (∀ p ∈ k.byId, (p : Nat × StoredEntry).1 < k.nextId) ∧
     (∀ p ∈ k.byId, ∀ q ∈ (p : Nat × StoredEntry).2.parentId, q < p.1) ∧
     (∀ l ∈ k.leafId, l < k.nextId))
    ⟨fun ⟨a, b, c, d⟩ => ⟨a, b, c, d⟩, fun ⟨a, b, c, d⟩ => ⟨a, b, c, d⟩⟩

/-- The map's parent links point strictly downward. -/
def ParentsDown (m : EntryMap) : Prop :=
  ∀ p ∈ m, ∀ q ∈ (p : Nat × StoredEntry).2.parentId, q < p.1

/-! ## Walk lemmas -/

/-- On parent-decreasing maps the branch walk is fuel-insensitive once the
fuel exceeds the start id. -/
theorem walkBranch_fuel {m : EntryMap} (hm : ParentsDown m) :
    ∀ i f, i + 1 ≤ f → walkBranch m f i = walkBranch m (i + 1) i := by
  intro i
  induction i using Nat.strong_induction_on with
  | _ i ih =>
    intro f hf
    obtain ⟨f', rfl⟩ : ∃ f', f = f' + 1 := ⟨f - 1, by omega⟩
    cases hl : lookupE m i with
    | none => simp [walkBranch, hl]
    | some e =>
      cases hp : e.parentId with
      | none => simp [walkBranch, hl, hp]
      | some p =>
        have hpi : p < i := hm _ (lookupE_mem hl) _ (by simp [hp])
        have h1 : walkBranch m f' p = walkBranch m (p + 1) p := ih p hpi f' (by omega)
        have h2 : walkBranch m i p = walkBranch m (p + 1) p := ih p hpi i (by omega)
        simp [walkBranch, hl, hp, h1, h2]

/-- Walks agree on maps that agree below a bound, starting below the bound. -/
theorem walkBranch_congr {m m' : EntryMap} {B : Nat} (hm : ParentsDown m)
    (hag : ∀ j, j < B → lookupE m' j = lookupE m j) :
    ∀ f i, i < B → walkBranch m' f i = walkBranch m f i := by
  intro f
  induction f with
  | zero => intro i _; rfl
  | succ f ih =>
    intro i hi
    have hag' := hag i hi
    cases hl : lookupE m i with
    | none => simp [walkBranch, hag', hl]
    | some e =>
      cases hp : e.parentId with
      | none => simp [walkBranch, hag', hl, hp]
      | some p =>
        have hpi : p < i := hm _ (lookupE_mem hl) _ (by simp [hp])
        simp [walkBranch, hag', hl, hp, ih p (by omega)]

/-- Every entry collected along a walk has id at most the start id. -/
theorem walkBranch_id_le {m : EntryMap} (hk : ∀ p ∈ m, (p : Nat × StoredEntry).2.id = p.1)
    (hm : ParentsDown m) :
    ∀ f i e, e ∈ walkBranch m f i → e.id ≤ i := by
  intro f
  induction f with
  | zero => intro i e h; simp [walkBranch] at h
  | succ f ih =>
    intro i e h
    cases hl : lookupE m i with
    | none => simp [walkBranch, hl] at h
    | some e0 =>
      have he0 : e0.id = i := hk _ (lookupE_mem hl)
      cases hp : e0.parentId with
      | none =>
        simp [walkBranch, hl, hp] at h
        subst h
        omega
      | some p =>
        simp [walkBranch, hl, hp] at h
        rcases h with h | h
        · have hpi : p < i := hm _ (lookupE_mem hl) _ (by simp [hp])
          have := ih p e h
          omega
        · subst h
          omega

/-! ## Append: state evolution -/

theorem append_fst (k : Kernel) (e : AgentEntry) (now : Nat) :
    (k.append e now).1 =
      { k with
        byId := setE k.byId k.nextId (appendRecord k e now)
        leafId := some k.nextId
        nextId := k.nextId + 1
        tokenUsed := (truthyUsageInput (normalizeEntry e)).getD k.tokenUsed
        kernelFile := k.kernelFile.map (· ++ [appendRecord k e now]) } := rfl

theorem append_snd (k : Kernel) (e : AgentEntry) (now : Nat) :
    (k.append e now).2 = .ok k.nextId := rfl

/-- Appending preserves well-formedness. -/
theorem WF_append {k : Kernel} (h : k.WF) (e : AgentEntry) (now : Nat) :
    (k.append e now).1.WF := by
  rw [append_fst]
  refine ⟨?_, ?_, ?_, ?_⟩
  · intro p hp
    rcases mem_setE hp with rfl | hp'
    · rfl
    · exact h.keysMatch _ hp'
  · intro p hp
    rcases mem_setE hp with rfl | hp'
    · simp
    · have := h.keysLt _ hp'
      simp only at this ⊢
      omega
  · intro p hp q hq
    rcases mem_setE hp with rfl | hp'
    · exact h.leafLt q hq
    · exact h.parentsLt _ hp' q hq
  · intro l hl
    simp only [Option.mem_def, Option.some_inj] at hl
    subst hl
    show k.nextId < k.nextId + 1
    omega

/-- `read` after `append` is `read` before with the fresh record appended. -/
theorem read_append {k : Kernel} (h : k.WF) (e : AgentEntry) (now : Nat) :
    (k.append e now).1.read = k.read ++ [appendRecord k e now] := by
  have hparent : (appendRecord k e now).parentId = k.leafId := rfl
  rw [append_fst]
  show walkBranch (setE k.byId k.nextId (appendRecord k e now)) (k.nextId + 1) k.nextId
      = k.read ++ [appendRecord k e now]
  have hlook : lookupE (setE k.byId k.nextId (appendRecord k e now)) k.nextId
      = some (appendRecord k e now) := lookupE_setE_self _ _ _
  have hag : ∀ j, j < k.nextId →
      lookupE (setE k.byId k.nextId (appendRecord k e now)) j = lookupE k.byId j := by
    intro j hj
    exact lookupE_setE_ne _ _ (by omega)
  cases hleaf : k.leafId with
  | none =>
    simp [walkBranch, hlook, hparent, hleaf, Kernel.read]
  | some l =>
    have hl : l < k.nextId := h.leafLt l (by simp [hleaf])
    have hcongr : walkBranch (setE k.byId k.nextId (appendRecord k e now)) k.nextId l
        = walkBranch k.byId k.nextId l :=
      walkBranch_congr h.parentsLt hag k.nextId l hl
    have hfuel : walkBranch k.byId k.nextId l = walkBranch k.byId (l + 1) l :=
      walkBranch_fuel h.parentsLt l k.nextId (by omega)
    simp [walkBranch, hlook, hparent, hleaf, Kernel.read, hcongr, hfuel]

/-! ## Operation-sequence lemmas -/

theorem applyOp_nextId_le (k : Kernel) (op : KOp) : k.nextId ≤ (applyOp k op).nextId := by
  cases op with
  | app e now => simp [applyOp, Kernel.append, Kernel.write]
  | comp f t s now =>
    simp [applyOp, Kernel.compact, Kernel.writeCompaction, Kernel.materialize]
  | br i =>
    cases h : k.branch i with
    | none => simp [applyOp, h]
    | some k' =>
      simp only [applyOp, h, Option.getD_some]
      unfold Kernel.branch at h
      cases hl : lookupE k.byId i <;> simp [hl] at h
      subst h
      exact Nat.le_refl _

theorem applyOps_nextId_le (ops : List KOp) :
    ∀ k : Kernel, k.nextId ≤ (applyOps k ops).nextId := by
  induction ops with
  | nil => intro k; exact Nat.le_refl _
  | cons op rest ih =>
    intro k
    exact Nat.le_trans (applyOp_nextId_le k op) (ih (applyOp k op))

theorem assignedWith_lt (ops : List KOp) :
    ∀ k : Kernel, ∀ i ∈ assignedWith k ops, i < (applyOps k ops).nextId := by
  induction ops with
  | nil => intro k i hi; simp [assignedWith] at hi
  | cons op rest ih =>
    intro k i hi
    have hones : applyOps k (op :: rest) = applyOps (applyOp k op) rest := rfl
    rw [hones]
    have hrest : (applyOp k op).nextId ≤ (applyOps (applyOp k op) rest).nextId :=
      applyOps_nextId_le rest (applyOp k op)
    simp only [assignedWith, List.mem_append] at hi
    rcases hi with hi | hi
    · have hop : k.nextId < (applyOp k op).nextId := by
        cases op with
        | app e now =>
          simp [applyOp, Kernel.append, Kernel.write]
        | comp f t s now =>
          simp [applyOp, Kernel.compact, Kernel.writeCompaction, Kernel.materialize]
        | br j => simp at hi
      have : i = k.nextId := by
        cases op <;> simp_all
      omega
    · exact ih (applyOp k op) i hi

/-! ## Round-trip replay lemmas -/

theorem coreAgrees_loadStep {a b : Kernel} (h : coreAgrees a b) (r : StoredEntry) :
    coreAgrees (loadStep a r) (loadStep b r) := by
  obtain ⟨h1, h2, h3, h4⟩ := h
  exact ⟨by simp [loadStep, h1], by simp [loadStep], by simp [loadStep, h3],
    by simp [loadStep, h4]⟩

theorem coreAgrees_foldl (f : List StoredEntry) :
    ∀ {a b : Kernel}, coreAgrees a b →
      coreAgrees (f.foldl loadStep a) (f.foldl loadStep b) := by
  induction f with
  | nil => intro a b h; exact h
  | cons r rest ih => intro a b h; exact ih (coreAgrees_loadStep h r)

/-- `loadStep` on the record `append` just wrote recreates `append`'s state
change on the replayed copy. -/
theorem loadStep_appendRecord {L k : Kernel} (h : coreAgrees L k)
    (e : AgentEntry) (now : Nat) :
    coreAgrees (loadStep L (appendRecord k e now)) (k.append e now).1 := by
  obtain ⟨h1, h2, h3, h4⟩ := h
  refine ⟨?_, ?_, ?_, ?_⟩
  · simp [loadStep, appendRecord, Kernel.append, Kernel.write, h1, h3]
  · simp [loadStep, appendRecord, Kernel.append, Kernel.write]
  · simp [loadStep, appendRecord, Kernel.append, Kernel.write, h3]
  · simp [loadStep, appendRecord, Kernel.append, Kernel.write, h4]

/-- The replay invariant: re-reading the current `kernel.jsonl` rebuilds the
in-memory state.  Holds for a fresh persisted kernel and is preserved by
`append`. -/
def ReplayInv (k : Kernel) : Prop :=
  ∃ f, k.kernelFile = some f ∧ coreAgrees (Kernel.loadFromFile f) k

theorem replayInv_createPersisted : ReplayInv createPersistedKernel :=
  ⟨[], rfl, ⟨rfl, rfl, rfl, rfl⟩⟩

theorem replayInv_append {k : Kernel} (h : ReplayInv k) (e : AgentEntry) (now : Nat) :
    ReplayInv (k.append e now).1 := by
  obtain ⟨f, hf, hcore⟩ := h
  refine ⟨f ++ [appendRecord k e now], ?_, ?_⟩
  · simp [Kernel.append, Kernel.write, hf, appendRecord]
  · have hinit : coreAgrees
        ({ createKernel with kernelFile := some (f ++ [appendRecord k e now]) })
        ({ createKernel with kernelFile := some f }) :=
      ⟨rfl, rfl, rfl, rfl⟩
    have hfold := coreAgrees_foldl f hinit
    have hL : coreAgrees (Kernel.loadFromFile (f ++ [appendRecord k e now]))
        (loadStep (Kernel.loadFromFile f) (appendRecord k e now)) := by
      unfold Kernel.loadFromFile
      rw [List.foldl_append]
      exact coreAgrees_loadStep hfold _
    obtain ⟨a1, a2, a3, a4⟩ := hL
    obtain ⟨b1, b2, b3, b4⟩ := loadStep_appendRecord hcore e now
    exact ⟨a1.trans b1, a2.trans b2, a3.trans b3, a4.trans b4⟩

theorem replayInv_appendAll (es : List (AgentEntry × Nat)) :
    ∀ {k : Kernel}, ReplayInv k → ReplayInv (appendAll k es) := by
  induction es with
  | nil => intro k h; exact h
  | cons p rest ih =>
    intro k h
    obtain ⟨e, now⟩ := p
    exact ih (replayInv_append h e now)

theorem coreAgrees_read {a b : Kernel} (h : coreAgrees a b) : a.read = b.read := by
  obtain ⟨h1, h2, _, _⟩ := h
  unfold Kernel.read
  rw [h1, h2]

theorem coreAgrees_contextSize {a b : Kernel} (h : coreAgrees a b) :
    a.contextSize = b.contextSize := by
  obtain ⟨h1, h2, _, _⟩ := h
  unfold Kernel.contextSize Kernel.peek
  rw [h1, h2]

/-! ## Claim C1 -/

/-- **C1, counterexample.**  The claim says `contextSize` equals `budget.used`
regardless of the leaf entry's type.  On the kernel that appended an assistant
entry with input usage 5 and then a user entry, `contextSize` is 0 while
`budget.used` is still 5. -/
theorem c1_counterexample :
    c1Kernel.contextSize = 0 ∧ c1Kernel.budgetUsed = 5 ∧
      c1Kernel.contextSize ≠ c1Kernel.budgetUsed := by
  decide

/-- **C1, amended.**  `contextSize` is leaf-dependent: appending an assistant
entry with non-zero input usage makes `contextSize` and `budget.used` agree
(both equal to that input count), while appending a user entry drops
`contextSize` to 0 and leaves `budget.used` unchanged. -/
theorem c1_contextSize_leaf_dependent (k : Kernel) (now : Nat) :
    (∀ text reasoning toolCalls stopReason err u,
      u.input ≠ 0 →
      ((k.append (.assistant text reasoning toolCalls stopReason err (some u)) now).1.contextSize
          = u.input ∧
        (k.append (.assistant text reasoning toolCalls stopReason err (some u)) now).1.budgetUsed
          = u.input)) ∧
    (∀ parts,
      (k.append (.user parts) now).1.contextSize = 0 ∧
      (k.append (.user parts) now).1.budgetUsed = k.budgetUsed) := by
  constructor
  · intro text reasoning toolCalls stopReason err u hu
    constructor
    · simp [Kernel.append, Kernel.write, Kernel.contextSize, Kernel.peek,
        lookupE_setE_self, normalizeEntry]
    · simp [Kernel.append, Kernel.write, Kernel.budgetUsed, truthyUsageInput,
        normalizeEntry, hu]
  · intro parts
    constructor
    · simp [Kernel.append, Kernel.write, Kernel.contextSize, Kernel.peek,
        lookupE_setE_self, normalizeEntry]
    · simp [Kernel.append, Kernel.write, Kernel.budgetUsed, truthyUsageInput,
        normalizeEntry]

/-- **C1, witness** for the amended theorem at a concrete state. -/
theorem c1_witness :
    ((createKernel.append (.assistant "a" none [] none none (some ⟨9, 1⟩)) 7).1.contextSize = 9 ∧
      (createKernel.append (.assistant "a" none [] none none (some ⟨9, 1⟩)) 7).1.budgetUsed = 9) ∧
    ((createKernel.append (.user ["u"]) 7).1.contextSize = 0 ∧
      (createKernel.append (.user ["u"]) 7).1.budgetUsed = createKernel.budgetUsed) :=
  ⟨(c1_contextSize_leaf_dependent createKernel 7).1 "a" none [] none none ⟨9, 1⟩ (by decide),
    (c1_contextSize_leaf_dependent createKernel 7).2 ["u"]⟩

/-! ## Claim C10 -/

/-- **C10.**  `append` always succeeds with the next id, which is strictly
greater than every id previously assigned by `append` or `compact`; the new
record's `parentId` is the pre-call `leafId` (none on a fresh kernel) and the
leaf advances to the new id. -/
theorem c10_append_fresh_id (ops : List KOp) (e : AgentEntry) (now : Nat) :
    ((applyOps createKernel ops).append e now).2 = .ok (applyOps createKernel ops).nextId ∧
    ((applyOps createKernel ops).append e now).1.leafId
      = some (applyOps createKernel ops).nextId ∧
    lookupE ((applyOps createKernel ops).append e now).1.byId (applyOps createKernel ops).nextId
      = some (appendRecord (applyOps createKernel ops) e now) ∧
    (appendRecord (applyOps createKernel ops) e now).parentId
      = (applyOps createKernel ops).leafId ∧
    createKernel.leafId = none ∧
    (∀ i ∈ assignedIds ops, i < (applyOps createKernel ops).nextId) := by
  refine ⟨rfl, rfl, ?_, rfl, rfl, ?_⟩
  · exact lookupE_setE_self _ _ _
  · exact assignedWith_lt ops createKernel

/-- **C10, witness** at a concrete history (append, compact, branch, append). -/
theorem c10_witness :
    ((applyOps createKernel
        [.app (.user ["a"]) 1, .app (.user ["b"]) 2, .comp 0 1 "s" 3, .br 2]).append
      (.user ["c"]) 9).2 = .ok 3 ∧
    (∀ i ∈ assignedIds [KOp.app (.user ["a"]) 1, .app (.user ["b"]) 2, .comp 0 1 "s" 3, .br 2],
      i < (applyOps createKernel
        [.app (.user ["a"]) 1, .app (.user ["b"]) 2, .comp 0 1 "s" 3, .br 2]).nextId) :=
  ⟨(c10_append_fresh_id [.app (.user ["a"]) 1, .app (.user ["b"]) 2, .comp 0 1 "s" 3, .br 2]
      (.user ["c"]) 9).1,
    (c10_append_fresh_id [.app (.user ["a"]) 1, .app (.user ["b"]) 2, .comp 0 1 "s" 3, .br 2]
      (.user ["c"]) 9).2.2.2.2.2⟩

/-! ## Claim C3 -/

/-- **C3.**  Round-trip: after any sequence of `append`s on a fresh persisted
kernel, replaying the session's `kernel.jsonl` from disk (what re-opening the
session id does) reproduces an identical `read()` and an identical
`contextSize`. -/
theorem c3_roundtrip (es : List (AgentEntry × Nat)) :
    (Kernel.loadFromFile ((appendAll createPersistedKernel es).kernelFile.getD [])).read
        = (appendAll createPersistedKernel es).read ∧
    (Kernel.loadFromFile ((appendAll createPersistedKernel es).kernelFile.getD [])).contextSize
        = (appendAll createPersistedKernel es).contextSize := by
  obtain ⟨f, hf, hcore⟩ := replayInv_appendAll es replayInv_createPersisted
  rw [hf]
  exact ⟨coreAgrees_read hcore, coreAgrees_contextSize hcore⟩

/-! ## Compaction lemmas -/

theorem range'_snoc (s n : Nat) : List.range' s (n + 1) = List.range' s n ++ [s + n] := by
  rw [List.range'_concat]
  simp

theorem walkBranch_succ (m : EntryMap) (f i : Nat) :
    walkBranch m (f + 1) i =
      match lookupE m i with
      | none => []
      | some e =>
        (match e.parentId with
         | none => []
         | some p => walkBranch m f p) ++ [e] := rfl

theorem walkBranch_top {m' : EntryMap} {nid : Nat} {r : StoredEntry}
    (hl : lookupE m' nid = some r) (f : Nat) :
    walkBranch m' (f + 1) nid
      = (match r.parentId with
         | none => []
         | some p => walkBranch m' f p) ++ [r] := by
  rw [walkBranch_succ, hl]

/-- Walking from the top of a consecutive ancestor chain yields the prefix
above the chain followed by the chain itself. -/
theorem chain_walk {m : EntryMap} (hpd : ParentsDown m) (ce : Nat → StoredEntry)
    (fromId : Nat) :
    ∀ len,
      (∀ j ∈ List.range' fromId (len + 1),
        lookupE m j = some (ce j) ∧ (ce j).id = j ∧
          (ce j).parentId = (if j = fromId then (ce fromId).parentId else some (j - 1))) →
      walkBranch m (fromId + len + 1) (fromId + len)
        = rangePrefix m ((ce fromId).parentId) ++ (List.range' fromId (len + 1)).map ce := by
  intro len
  induction len with
  | zero =>
    intro hchain
    have h0 := hchain fromId (by rw [List.mem_range'_1]; omega)
    obtain ⟨hl, hid, _⟩ := h0
    show walkBranch m (fromId + 1) fromId
        = rangePrefix m ((ce fromId).parentId) ++ (List.range' fromId 1).map ce
    cases hpar : (ce fromId).parentId with
    | none => simp [walkBranch, hl, hpar, rangePrefix, List.range']
    | some p =>
      have hplt : p < fromId := hpd _ (lookupE_mem hl) p (by simp [hpar])
      have hfuel : walkBranch m fromId p = walkBranch m (p + 1) p :=
        walkBranch_fuel hpd p fromId (by omega)
      simp [walkBranch, hl, hpar, rangePrefix, hfuel, List.range']
  | succ len ih =>
    intro hchain
    have hj := hchain (fromId + len + 1) (by rw [List.mem_range'_1]; omega)
    obtain ⟨hl, hid, hp⟩ := hj
    rw [if_neg (by omega : ¬(fromId + len + 1 = fromId))] at hp
    have hp' : (ce (fromId + len + 1)).parentId = some (fromId + len) := hp
    have ihh := ih (fun j hjm => hchain j (by
      rw [List.mem_range'_1] at hjm ⊢
      omega))
    show walkBranch m (fromId + len + 1 + 1) (fromId + len + 1)
        = rangePrefix m ((ce fromId).parentId) ++ (List.range' fromId (len + 2)).map ce
    have hr : List.range' fromId (len + 2) = List.range' fromId (len + 1) ++ [fromId + len + 1] :=
      range'_snoc fromId (len + 1)
    rw [walkBranch_top hl]
    simp only [hp', ihh, hr, List.map_append, List.map_cons, List.map_nil,
      List.append_assoc]

/-- Structural description of the state `compact` produces. -/
theorem compact_state (k : Kernel) (f t : Nat) (s : String) (now : Nat) :
    (k.compact f t s now).1.byId
        = setE (deleteRange k.byId f t) k.nextId
            { entry := .summary s, id := k.nextId,
              parentId := (lookupE k.byId f).bind (·.parentId), timestamp := now }
    ∧ (k.compact f t s now).1.leafId = some k.nextId
    ∧ (k.compact f t s now).1.nextId = k.nextId + 1
    ∧ (k.compact f t s now).2 = .ok k.nextId :=
  ⟨rfl, rfl, rfl, rfl⟩

/-! ## Claim C2 -/

/-- **C2, counterexample.**  On the kernel whose branch is the user entries
0 → 1 → 2 (leaf 2), `compact(0, 1, s)` — a contiguous ancestor range on the
current branch, but one that does not end at the leaf — produces a branch of
length 1, not the claimed `3 - ((1 - 0 + 1) - 1) = 2`; entry 2, although
outside the compacted range, also vanishes from `read()`. -/
theorem c2_counterexample :
    c2Kernel.read.map (·.id) = [0, 1, 2] ∧
    (c2Kernel.compact 0 1 "s" 103).1.read.length = 1 ∧
    c2Kernel.read.length - ((1 - 0 + 1) - 1) = 2 ∧
    (c2Kernel.compact 0 1 "s" 103).1.read.length ≠ 2 ∧
    (∃ e ∈ c2Kernel.read, e.id = 2) ∧
    (∀ e ∈ (c2Kernel.compact 0 1 "s" 103).1.read, e.id ≠ 2) := by
  decide

/-- **C2, amended.**  When the contiguous ancestor range `[fromId, toId]` is a
suffix of the current branch (`toId` is the leaf), `compact` leaves no id of
the range in `read()`, splices exactly one fresh summary entry in the place
the range occupied (its `parentId` the one `fromId` had), and shortens the
branch by exactly `(toId - fromId + 1) - 1`.  (The chain hypothesis `hchain`
says ids `fromId..toId` sit consecutively on the branch.) -/
theorem c2_compact_replaces_suffix (k : Kernel) (fromId toId : Nat) (text : String)
    (now : Nat) (ce : Nat → StoredEntry)
    (hwf : k.WF) (hleaf : k.leafId = some toId) (hft : fromId ≤ toId)
    (hchain : ∀ j ∈ List.range' fromId (toId - fromId + 1),
      lookupE k.byId j = some (ce j) ∧ (ce j).id = j ∧
        (ce j).parentId = (if j = fromId then (ce fromId).parentId else some (j - 1))) :
    k.read = rangePrefix k.byId ((ce fromId).parentId)
        ++ (List.range' fromId (toId - fromId + 1)).map ce ∧
    (k.compact fromId toId text now).1.read
        = rangePrefix k.byId ((ce fromId).parentId)
          ++ [{ entry := .summary text, id := k.nextId,
                parentId := (ce fromId).parentId, timestamp := now }] ∧
    (∀ e ∈ (k.compact fromId toId text now).1.read, ¬(fromId ≤ e.id ∧ e.id ≤ toId)) ∧
    k.read.length = (k.compact fromId toId text now).1.read.length + (toId - fromId) := by
  have hlf : lookupE k.byId fromId = some (ce fromId) :=
    (hchain fromId (by rw [List.mem_range'_1]; omega)).1
  have hlt : lookupE k.byId toId = some (ce toId) :=
    (hchain toId (by rw [List.mem_range'_1]; omega)).1
  have hfrom_lt : fromId < k.nextId := hwf.keysLt _ (lookupE_mem hlf)
  have hto_lt : toId < k.nextId := hwf.keysLt _ (lookupE_mem hlt)
  -- the original branch decomposes as prefix ++ chain
  have hto : fromId + (toId - fromId) = toId := by omega
  have hread : k.read = rangePrefix k.byId ((ce fromId).parentId)
      ++ (List.range' fromId (toId - fromId + 1)).map ce := by
    have h2 := chain_walk hwf.parentsLt ce fromId (toId - fromId) hchain
    rw [hto] at h2
    unfold Kernel.read
    rw [hleaf]
    exact h2
  -- the compacted state
  obtain ⟨hbyId, hleaf', _, _⟩ := compact_state k fromId toId text now
  have hbind : (lookupE k.byId fromId).bind (·.parentId) = (ce fromId).parentId := by
    rw [hlf]
    rfl
  set srec : StoredEntry :=
    { entry := .summary text, id := k.nextId,
      parentId := (ce fromId).parentId, timestamp := now } with hsrec
  have hbyId' : (k.compact fromId toId text now).1.byId
      = setE (deleteRange k.byId fromId toId) k.nextId srec := by
    rw [hbyId, hbind]
  have hlook : lookupE (setE (deleteRange k.byId fromId toId) k.nextId srec) k.nextId
      = some srec := lookupE_setE_self _ _ _
  have hag : ∀ j, j < fromId →
      lookupE (setE (deleteRange k.byId fromId toId) k.nextId srec) j = lookupE k.byId j := by
    intro j hj
    rw [lookupE_setE_ne _ _ (by omega), lookupE_deleteRange, if_neg (by omega)]
  have hread' : (k.compact fromId toId text now).1.read
      = rangePrefix k.byId ((ce fromId).parentId) ++ [srec] := by
    unfold Kernel.read
    rw [hleaf', hbyId']
    show walkBranch (setE (deleteRange k.byId fromId toId) k.nextId srec) (k.nextId + 1) k.nextId
        = rangePrefix k.byId ((ce fromId).parentId) ++ [srec]
    rw [walkBranch_top hlook]
    have hsp : srec.parentId = (ce fromId).parentId := rfl
    rw [hsp]
    cases hpar : (ce fromId).parentId with
    | none => rfl
    | some p =>
      have hplt : p < fromId := hwf.parentsLt _ (lookupE_mem hlf) p (by simp [hpar])
      have hcongr : walkBranch (setE (deleteRange k.byId fromId toId) k.nextId srec) k.nextId p
          = walkBranch k.byId k.nextId p :=
        walkBranch_congr hwf.parentsLt hag k.nextId p (by omega)
      have hfuel : walkBranch k.byId k.nextId p = walkBranch k.byId (p + 1) p :=
        walkBranch_fuel hwf.parentsLt p k.nextId (by omega)
      show walkBranch (setE (deleteRange k.byId fromId toId) k.nextId srec) k.nextId p ++ [srec]
          = rangePrefix k.byId (some p) ++ [srec]
      rw [hcongr, hfuel]
      rfl
  refine ⟨hread, hread', ?_, ?_⟩
  · intro e he
    rw [hread'] at he
    rcases List.mem_append.mp he with he | he
    · cases hpar : (ce fromId).parentId with
      | none => rw [hpar] at he; simp [rangePrefix] at he
      | some p =>
        rw [hpar] at he
        have hplt : p < fromId := hwf.parentsLt _ (lookupE_mem hlf) p (by simp [hpar])
        have := walkBranch_id_le hwf.keysMatch hwf.parentsLt (p + 1) p e he
        omega
    · have : e = srec := by simpa using he
      subst this
      simp only [hsrec]
      omega
  · rw [hread, hread']
    simp [List.length_append, List.length_map, List.length_range']
    omega

/-- **C2, witness** for the amended theorem: compacting the suffix `[1, 2]` of
the three-entry branch `0 → 1 → 2`. -/
theorem c2_witness :
    (c2Kernel.compact 1 2 "s" 103).1.read
        = walkBranch c2Kernel.byId 1 0
          ++ [{ entry := .summary "s", id := 3, parentId := some 0, timestamp := 103 }] ∧
    c2Kernel.read.length = (c2Kernel.compact 1 2 "s" 103).1.read.length + 1 := by
  have h := c2_compact_replaces_suffix c2Kernel 1 2 "s" 103
    (fun j => if j = 1
      then { entry := .user ["m1"], id := 1, parentId := some 0, timestamp := 101 }
      else { entry := .user ["m2"], id := 2, parentId := some 1, timestamp := 102 })
    (by decide) (by decide) (by decide) (by decide)
  exact ⟨h.2.1, h.2.2.2⟩

/-! ## Claim C7 -/

/-- **C7.**  `createdAt` is written exactly once, at first creation, and no
subsequent open with new metadata nor `updateSessionMeta` changes it; other
fields merge on each open; opening twice with the same meta fields yields
identical `meta.json` content. -/
theorem c7_meta_createdAt_immutable :
    (∀ m now, (openSessionMeta none m now).createdAt = now) ∧
    (∀ ex m now, (openSessionMeta (some ex) m now).createdAt = ex.createdAt) ∧
    (∀ ex patch, (updateSessionMeta (some ex) patch).map (·.createdAt) = some ex.createdAt) ∧
    (∀ ex t now, (openSessionMeta (some ex) (some (some t)) now).title = some t) ∧
    (∀ m n1 n2,
      openSessionMeta (some (openSessionMeta none m n1)) m n2 = openSessionMeta none m n1) := by
  refine ⟨fun m now => rfl, ?_, ?_, fun ex t now => rfl, ?_⟩
  · intro ex m now
    rcases m with _ | (_ | t) <;> rfl
  · intro ex patch
    rcases patch with _ | t <;> rfl
  · intro m n1 n2
    rcases m with _ | (_ | t) <;> rfl

/-! ## Claim C4 -/

theorem withRetryGo_calls_le {E A : Type} (env : RetryEnv E A) (maxA kk : Nat)
    (hA : env.abortedAfter kk = true) (hB : ∀ i, kk < i → env.abortedBefore i = true) :
    ∀ fuel attempt lastErr,
      (withRetryGo env maxA fuel attempt lastErr).2 ≤ kk + 1 - attempt := by
  intro fuel
  induction fuel with
  | zero => intro attempt lastErr; simp [withRetryGo]
  | succ fuel ih =>
    intro attempt lastErr
    by_cases hgt : attempt > maxA
    · simp [withRetryGo, hgt]
    · by_cases hab : env.abortedBefore attempt = true
      · simp [withRetryGo, hgt, hab]
      · have hak : attempt ≤ kk := by
          by_contra hc
          exact hab (hB attempt (by omega))
        cases hcall : env.call attempt with
        | ok a => simp [withRetryGo, hgt, hab, hcall]; omega
        | error e =>
          by_cases haa : env.abortedAfter attempt = true
          · simp [withRetryGo, hgt, hab, hcall, haa]; omega
          · by_cases hmax : attempt = maxA
            · subst hmax
              simp [withRetryGo, hgt, hab, hcall, haa]
              omega
            · have hrec := ih (attempt + 1) (some e)
              have hkk : attempt ≠ kk := fun hc => haa (hc ▸ hA)
              simp only [withRetryGo, if_neg (by omega : ¬attempt > maxA), hab,
                Bool.false_eq_true, if_false, hcall, haa, if_neg hmax]
              show (withRetryGo env maxA fuel (attempt + 1) (some e)).2 + 1 ≤ kk + 1 - attempt
              omega

/-- **C4.**  With `retryOnError`: a stream function failing twice then
succeeding, under `maxAttempts = 3`, is invoked exactly 3 times and the
terminal event carries no error; an always-failing function under
`maxAttempts = 2` is invoked exactly 2 times and the run ends with that
function's error; and once the cancellation signal is observed aborted
(during attempt `kk`), no further invocation is made. -/
theorem c4_retry_policy :
    ((withRetry retryEnv3 3).2 = 3 ∧ terminalEventError (withRetry retryEnv3 3).1 = none) ∧
    ((withRetry retryEnv2 2).2 = 2 ∧
      terminalEventError (withRetry retryEnv2 2).1 = some (.failed 20)) ∧
    (∀ (E A : Type) (env : RetryEnv E A) (maxAttempts kk : Nat),
      env.abortedAfter kk = true →
      (∀ i, kk < i → env.abortedBefore i = true) →
      (withRetry env maxAttempts).2 ≤ kk) := by
  refine ⟨⟨by decide, by decide⟩, ⟨by decide, by decide⟩, ?_⟩
  intro E A env maxAttempts kk hA hB
  have h := withRetryGo_calls_le env maxAttempts kk hA hB (maxAttempts + 1) 1 none
  unfold withRetry
  omega

/-- **C4, witness**: an always-failing stream whose signal aborts during
attempt 2 is invoked at most twice even with `maxAttempts = 5`. -/
theorem c4_witness : (withRetry retryEnvAbort 5).2 ≤ 2 :=
  c4_retry_policy.2.2 Nat Nat retryEnvAbort 5 2 (by decide)
    (fun i hi => by
      show decide (2 < i) = true
      simpa using hi)

/-! ## Tool-batch lemmas -/

theorem zip_self_map {α β : Type} (f : α → β) (l : List α) :
    l.zip (l.map f) = l.map (fun x => (x, f x)) := by
  induction l with
  | nil => rfl
  | cons x xs ih => simp [ih]

theorem commitResults_spec (now : Nat) (outcomes : List (ToolCallInfo × ToolResult)) :
    ∀ {k : Kernel}, k.WF →
      (commitResults now k outcomes).2 = outcomes.map (fun p => resInfo p.1 p.2) ∧
      ((commitResults now k outcomes).1.read).map (·.entry)
        = (k.read).map (·.entry) ++ outcomes.map (fun p => toolResultEntry p.1 p.2) ∧
      (commitResults now k outcomes).1.WF := by
  induction outcomes with
  | nil => intro k hwf; exact ⟨rfl, by simp [commitResults], hwf⟩
  | cons p rest ih =>
    intro k hwf
    obtain ⟨tc, r⟩ := p
    have hwf' := WF_append hwf (toolResultEntry tc r) now
    obtain ⟨ih1, ih2, ih3⟩ := ih hwf'
    refine ⟨?_, ?_, ih3⟩
    · simp only [commitResults]
      rw [ih1]
      rfl
    · simp only [commitResults]
      rw [ih2, read_append hwf]
      simp [appendRecord, normalizeEntry]


theorem executedIdx_mem (tools : List AgentTool) :
    ∀ (tcs : List ToolCallInfo) (idx i : Nat) (tc : ToolCallInfo),
      tcs.get? i = some tc → (runSingleToolC tools tc).2 = true →
      idx + i ∈ executedIdx tools idx tcs := by
  intro tcs
  induction tcs with
  | nil => intro idx i tc h _; simp at h
  | cons x rest ih =>
    intro idx i tc h hex
    cases i with
    | zero =>
      simp only [List.get?_cons_zero, Option.some_inj] at h
      subst h
      simp [executedIdx, hex]
    | succ i =>
      simp only [List.get?_cons_succ] at h
      have hmem := ih (idx + 1) i tc h hex
      have harith : idx + (i + 1) = (idx + 1) + i := by omega
      rw [harith]
      simp only [executedIdx, List.mem_append]
      exact Or.inr hmem

theorem seqGo_skip (tools : List AgentTool) (now : Nat) (s : List AgentEntry) :
    ∀ (rest : List ToolCallInfo) (k : Kernel) (polls : List (List AgentEntry)) (idx : Nat),
      k.WF →
      (executeToolsSequentialGo tools now k polls idx rest (some s)).steeringOut = some s ∧
      (executeToolsSequentialGo tools now k polls idx rest (some s)).results
        = rest.map skipInfo ∧
      (executeToolsSequentialGo tools now k polls idx rest (some s)).executed = [] ∧
      (executeToolsSequentialGo tools now k polls idx rest (some s)).pollCount = 0 ∧
      ((executeToolsSequentialGo tools now k polls idx rest (some s)).kernel.read).map (·.entry)
        = (k.read).map (·.entry) ++ rest.map (fun tc => toolResultEntry tc skipResult) := by
  intro rest
  induction rest with
  | nil =>
    intro k polls idx hwf
    exact ⟨rfl, rfl, rfl, rfl, by simp [executeToolsSequentialGo]⟩
  | cons tc rest ih =>
    intro k polls idx hwf
    have hwf' := WF_append hwf (toolResultEntry tc skipResult) now
    obtain ⟨i1, i2, i3, i4, i5⟩ :=
      ih (k.append (toolResultEntry tc skipResult) now).1 polls (idx + 1) hwf'
    refine ⟨i1, ?_, i3, i4, ?_⟩
    · simp only [executeToolsSequentialGo]
      rw [i2]
      rfl
    · simp only [executeToolsSequentialGo]
      rw [i5, read_append hwf]
      simp [appendRecord, normalizeEntry]

/-- The sequential loop when steering is observed right after the
`(pre.length + 1)`-th call: earlier polls are empty, the poll after call
`pre.length + 1` returns `steer ≠ []`, and every later call is skipped. -/
theorem seqGo_main (tools : List AgentTool) (now : Nat) (steer : List AgentEntry)
    (hs : steer ≠ []) (post : List ToolCallInfo) (tcK : ToolCallInfo) :
    ∀ (pre : List ToolCallInfo) (k : Kernel) (polls' : List (List AgentEntry)) (idx : Nat),
      k.WF →
      (executeToolsSequentialGo tools now k
          (List.replicate pre.length [] ++ steer :: polls') idx (pre ++ tcK :: post)
          none).steeringOut = some steer ∧
      (executeToolsSequentialGo tools now k
          (List.replicate pre.length [] ++ steer :: polls') idx (pre ++ tcK :: post)
          none).results
        = (pre ++ [tcK]).map (fun tc => resInfo tc (runSingleToolC tools tc).1)
          ++ post.map skipInfo ∧
      (∀ j ∈ (executeToolsSequentialGo tools now k
          (List.replicate pre.length [] ++ steer :: polls') idx (pre ++ tcK :: post)
          none).executed, j < idx + pre.length + 1) ∧
      (executeToolsSequentialGo tools now k
          (List.replicate pre.length [] ++ steer :: polls') idx (pre ++ tcK :: post)
          none).pollCount = pre.length + 1 ∧
      ((executeToolsSequentialGo tools now k
          (List.replicate pre.length [] ++ steer :: polls') idx (pre ++ tcK :: post)
          none).kernel.read).map (·.entry)
        = (k.read).map (·.entry)
          ++ (pre ++ [tcK]).map (fun tc => toolResultEntry tc (runSingleToolC tools tc).1)
          ++ post.map (fun tc => toolResultEntry tc skipResult) := by
  intro pre
  induction pre with
  | nil =>
    intro k polls' idx hwf
    have hne : steer.isEmpty = false := by
      cases steer with
      | nil => exact absurd rfl hs
      | cons a l => rfl
    have hwf' := WF_append hwf (toolResultEntry tcK (runSingleToolC tools tcK).1) now
    obtain ⟨s1, s2, s3, s4, s5⟩ := seqGo_skip tools now steer post
      ((k.append (toolResultEntry tcK (runSingleToolC tools tcK).1) now).1) polls' (idx + 1) hwf'
    refine ⟨?_, ?_, ?_, ?_, ?_⟩
    · simp [executeToolsSequentialGo, hne, s1]
    · simp [executeToolsSequentialGo, hne, s2]
    · intro j hj
      simp [executeToolsSequentialGo, hne, s3] at hj
      by_cases hex : (runSingleToolC tools tcK).2
      · simp [hex] at hj
        simp only [List.length_nil]
        omega
      · simp [hex] at hj
    · simp [executeToolsSequentialGo, hne, s4]
    · simp only [List.length_nil, List.replicate, List.nil_append]
      simp [executeToolsSequentialGo, hne, s5, read_append hwf, appendRecord, normalizeEntry]
  | cons tc pre ih =>
    intro k polls' idx hwf
    have hwf' := WF_append hwf (toolResultEntry tc (runSingleToolC tools tc).1) now
    obtain ⟨i1, i2, i3, i4, i5⟩ :=
      ih ((k.append (toolResultEntry tc (runSingleToolC tools tc).1) now).1) polls' (idx + 1) hwf'
    have hrep : List.replicate (tc :: pre).length ([] : List AgentEntry) ++ steer :: polls'
        = [] :: (List.replicate pre.length [] ++ steer :: polls') := by
      simp [List.replicate]
    refine ⟨?_, ?_, ?_, ?_, ?_⟩
    · rw [hrep]
      simp [executeToolsSequentialGo, i1]
    · rw [hrep]
      simp [executeToolsSequentialGo, i2]
    · intro j hj
      rw [hrep] at hj
      simp [executeToolsSequentialGo, List.mem_append] at hj
      rcases hj with hj | hj
      · by_cases hex : (runSingleToolC tools tc).2
        · simp [hex] at hj
          simp only [List.length_cons]
          omega
        · simp [hex] at hj
      · have := i3 j hj
        simp only [List.length_cons]
        omega
    · rw [hrep]
      simp [executeToolsSequentialGo, i4]
    · rw [hrep]
      simp [executeToolsSequentialGo, i5, read_append hwf, appendRecord, normalizeEntry]

/-! ## Claim C6 -/

/-- **C6.**  Sequential mode with steering observed after the
`(pre.length + 1)`-th call completes: the loop still returns that steering,
no call after position `pre.length` has its `execute` invoked, every
subsequent call's committed/emitted result is the "Skipped: user
interrupted." error, steering is polled once per executed call only, and the
kernel receives the real results followed by the skip results in call
order. -/
theorem c6_sequential_steering_skips (tools : List AgentTool) (now : Nat)
    (pre post : List ToolCallInfo) (tcK : ToolCallInfo) (k : Kernel)
    (steer : List AgentEntry) (polls' : List (List AgentEntry))
    (hwf : k.WF) (hs : steer ≠ []) :
    (executeToolsSequential (pre ++ tcK :: post) tools k
        (List.replicate pre.length [] ++ steer :: polls') now).steeringOut = some steer ∧
    (executeToolsSequential (pre ++ tcK :: post) tools k
        (List.replicate pre.length [] ++ steer :: polls') now).results
      = (pre ++ [tcK]).map (fun tc => resInfo tc (runSingleToolC tools tc).1)
        ++ post.map skipInfo ∧
    (∀ j ∈ (executeToolsSequential (pre ++ tcK :: post) tools k
        (List.replicate pre.length [] ++ steer :: polls') now).executed,
      j < pre.length + 1) ∧
    (executeToolsSequential (pre ++ tcK :: post) tools k
        (List.replicate pre.length [] ++ steer :: polls') now).pollCount = pre.length + 1 ∧
    ((executeToolsSequential (pre ++ tcK :: post) tools k
        (List.replicate pre.length [] ++ steer :: polls') now).kernel.read).map (·.entry)
      = (k.read).map (·.entry)
        ++ (pre ++ [tcK]).map (fun tc => toolResultEntry tc (runSingleToolC tools tc).1)
        ++ post.map (fun tc => toolResultEntry tc skipResult) := by
  obtain ⟨h1, h2, h3, h4, h5⟩ := seqGo_main tools now steer hs post tcK pre k polls' 0 hwf
  exact ⟨h1, h2, fun j hj => by have := h3 j hj; omega, h4, h5⟩

/-- **C6, witness**: two successful calls to tool `a`, steering arriving
after the second; the trailing call to tool `b` is skipped. -/
theorem c6_witness :
    (executeToolsSequential [tcA, tcA, tcB] [toolA, toolB] createKernel
        [[], [AgentEntry.user ["stop"]]] 5).steeringOut = some [AgentEntry.user ["stop"]] ∧
    (executeToolsSequential [tcA, tcA, tcB] [toolA, toolB] createKernel
        [[], [AgentEntry.user ["stop"]]] 5).results
      = [resInfo tcA (runSingleToolC [toolA, toolB] tcA).1,
         resInfo tcA (runSingleToolC [toolA, toolB] tcA).1,
         skipInfo tcB] ∧
    (∀ j ∈ (executeToolsSequential [tcA, tcA, tcB] [toolA, toolB] createKernel
        [[], [AgentEntry.user ["stop"]]] 5).executed, j < 2) := by
  obtain ⟨h1, h2, h3, _, _⟩ := c6_sequential_steering_skips [toolA, toolB] 5 [tcA] [tcB] tcA
    createKernel [AgentEntry.user ["stop"]] [] (by decide) (by decide)
  exact ⟨h1, h2, h3⟩

/-! ## Claim C5 -/

/-- **C5.**  Parallel mode: every call settles (a call whose tool is found
and validates has its `execute` invoked, steering or not); a throwing
`execute` becomes an `isError: true` result instead of propagating; steering
is polled exactly once; if it arrived, every result in the batch is replaced
by the skipped-interrupted error, otherwise all real results are committed
and emitted in request order. -/
theorem c5_parallel_batch (toolCalls : List ToolCallInfo) (tools : List AgentTool)
    (k : Kernel) (polls : List (List AgentEntry)) (now : Nat) (hwf : k.WF) :
    (executeToolsParallel toolCalls tools k polls now).pollCount = 1 ∧
    (∀ i tc, toolCalls.get? i = some tc → (runSingleToolC tools tc).2 = true →
      i ∈ (executeToolsParallel toolCalls tools k polls now).executed) ∧
    (∀ tc tool v msg, tools.find? (fun t => t.name == tc.toolName) = some tool →
      tool.validate tc.input = .ok v → tool.exec tc.toolCallId v = .error msg →
      (runSingleToolC tools tc).1 = { content := msg, isError := true }) ∧
    (polls.headD [] ≠ [] →
      (executeToolsParallel toolCalls tools k polls now).results = toolCalls.map skipInfo ∧
      (executeToolsParallel toolCalls tools k polls now).steeringOut
        = some (polls.headD []) ∧
      ((executeToolsParallel toolCalls tools k polls now).kernel.read).map (·.entry)
        = (k.read).map (·.entry)
          ++ toolCalls.map (fun tc => toolResultEntry tc skipResult)) ∧
    (polls.headD [] = [] →
      (executeToolsParallel toolCalls tools k polls now).results
        = toolCalls.map (fun tc => resInfo tc (runSingleToolC tools tc).1) ∧
      (executeToolsParallel toolCalls tools k polls now).steeringOut = none ∧
      ((executeToolsParallel toolCalls tools k polls now).kernel.read).map (·.entry)
        = (k.read).map (·.entry)
          ++ toolCalls.map (fun tc => toolResultEntry tc (runSingleToolC tools tc).1)) := by
  refine ⟨rfl, ?_, ?_, ?_, ?_⟩
  · intro i tc h hex
    have := executedIdx_mem tools toolCalls 0 i tc h hex
    simpa using this
  · intro tc tool v msg hfind hval hexec
    simp [runSingleToolC, hfind, hval, hexec]
  · intro hne
    obtain ⟨cs1, cs2, _⟩ :=
      commitResults_spec now (toolCalls.map (fun tc => (tc, skipResult))) hwf
    cases polls with
    | nil => exact absurd rfl hne
    | cons p rest =>
      cases p with
      | nil => exact absurd rfl hne
      | cons a l =>
        refine ⟨?_, ?_, ?_⟩
        · simp [executeToolsParallel, cs1, skipInfo]
        · simp [executeToolsParallel]
        · simp [executeToolsParallel, cs2]
  · intro hemp
    have hout : toolCalls.zip (toolCalls.map ((·.1) ∘ runSingleToolC tools))
        = toolCalls.map (fun tc => (tc, (runSingleToolC tools tc).1)) :=
      zip_self_map _ _
    obtain ⟨cs1, cs2, _⟩ :=
      commitResults_spec now (toolCalls.map (fun tc => (tc, (runSingleToolC tools tc).1))) hwf
    cases polls with
    | nil =>
      refine ⟨?_, ?_, ?_⟩
      · simp [executeToolsParallel, hout, cs1]
      · simp [executeToolsParallel]
      · simp [executeToolsParallel, hout, cs2]
    | cons p rest =>
      have hp : p = [] := by simpa using hemp
      subst hp
      refine ⟨?_, ?_, ?_⟩
      · simp [executeToolsParallel, hout, cs1]
      · simp [executeToolsParallel]
      · simp [executeToolsParallel, hout, cs2]

/-- **C5, witness**: tool `a` succeeds and tool `b` throws; with no steering,
both results (the failure as an `isError` result) are emitted in request
order after a single poll. -/
theorem c5_witness :
    (executeToolsParallel [tcA, tcB] [toolA, toolB] createKernel [[]] 5).pollCount = 1 ∧
    (executeToolsParallel [tcA, tcB] [toolA, toolB] createKernel [[]] 5).results
      = [resInfo tcA (runSingleToolC [toolA, toolB] tcA).1,
         resInfo tcB (runSingleToolC [toolA, toolB] tcB).1] := by
  obtain ⟨h1, _, _, _, h5⟩ :=
    c5_parallel_batch [tcA, tcB] [toolA, toolB] createKernel [[]] 5 (by decide)
  exact ⟨h1, (h5 rfl).1⟩

/-! ## EventStream lemmas -/

theorem runActs_cons {T : Type} (s : StreamState T) (a : StreamAct T)
    (acts : List (StreamAct T)) :
    runActs s (a :: acts) = runActs (streamStep s a) acts := rfl

theorem pollRepeat_succ {T : Type} (n : Nat) (s : StreamState T) :
    pollRepeat (n + 1) s = pollRepeat n (streamStep s .poll) := rfl

theorem pollRepeat_finished {T : Type} :
    ∀ (n : Nat) (s : StreamState T), s.finished = true → pollRepeat n s = s := by
  intro n
  induction n with
  | zero => intro s _; rfl
  | succ n ih =>
    intro s h
    have hstep : streamStep s .poll = s := by simp [streamStep, h]
    rw [pollRepeat_succ, hstep]
    exact ih s h

/-- After the producer has finished, consumer polls preserve the terminal
invariant and the undelivered suffix. -/
theorem stream_run_polls {T : Type} :
    ∀ (acts : List (StreamAct T)) (s : StreamState T),
      prodActs acts = [] →
      s.done = true → s.waiter = false → (s.finished = true → s.queue = []) →
      (runActs s acts).done = true ∧ (runActs s acts).waiter = false ∧
      ((runActs s acts).finished = true → (runActs s acts).queue = []) ∧
      (runActs s acts).received ++ (runActs s acts).queue = s.received ++ s.queue := by
  intro acts
  induction acts with
  | nil => intro s _ hdone hwait hfin; exact ⟨hdone, hwait, hfin, rfl⟩
  | cons a rest ih =>
    intro s hprod hdone hwait hfin
    cases a with
    | push e => simp [prodActs, isProdAct] at hprod
    | fin => simp [prodActs, isProdAct] at hprod
    | poll =>
      have hprod' : prodActs rest = [] := by simpa [prodActs, isProdAct] using hprod
      rw [runActs_cons]
      by_cases hf : s.finished = true
      · have hstep : streamStep s .poll = s := by simp [streamStep, hf]
        rw [hstep]
        exact ih s hprod' hdone hwait hfin
      · cases hq : s.queue with
        | nil =>
          have hstep : streamStep s .poll = { s with finished := true } := by
            simp [streamStep, hf, hwait, hq, hdone]
          rw [hstep]
          have := ih { s with finished := true } hprod' (by simp [hdone]) (by simp [hwait])
            (by intro _; simp [hq])
          simpa [hq] using this
        | cons e tail =>
          have hstep : streamStep s .poll
              = { s with queue := tail, received := s.received ++ [e] } := by
            simp [streamStep, hf, hwait, hq]
          rw [hstep]
          have := ih { s with queue := tail, received := s.received ++ [e] } hprod'
            (by simp [hdone]) (by simp [hwait]) (by simp [hf])
          simpa [hq] using this

/-- Main interleaving invariant: any run whose producer subsequence is
`push e1 … push en, end` leaves a done, waiter-free state holding exactly the
pushed items (delivered plus still queued) in push order. -/
theorem stream_run_prod {T : Type} :
    ∀ (acts : List (StreamAct T)) (s : StreamState T) (es : List T),
      prodActs acts = es.map StreamAct.push ++ [StreamAct.fin] →
      s.done = false → s.finished = false → (s.waiter = true → s.queue = []) →
      (runActs s acts).done = true ∧ (runActs s acts).waiter = false ∧
      ((runActs s acts).finished = true → (runActs s acts).queue = []) ∧
      (runActs s acts).received ++ (runActs s acts).queue = (s.received ++ s.queue) ++ es := by
  intro acts
  induction acts with
  | nil =>
    intro s es hprod _ _ _
    simp [prodActs] at hprod
  | cons a rest ih =>
    intro s es hprod hdone hfin hwait
    cases a with
    | poll =>
      have hprod' : prodActs rest = es.map StreamAct.push ++ [StreamAct.fin] := by
        simpa [prodActs, isProdAct] using hprod
      rw [runActs_cons]
      by_cases hw : s.waiter = true
      · have hstep : streamStep s .poll = s := by simp [streamStep, hw]
        rw [hstep]
        exact ih s es hprod' hdone hfin hwait
      · have hw' : s.waiter = false := by simpa using hw
        cases hq : s.queue with
        | nil =>
          have hstep : streamStep s .poll = { s with waiter := true } := by
            simp [streamStep, hfin, hw', hq, hdone]
          rw [hstep]
          have := ih { s with waiter := true } es hprod' (by simp [hdone]) (by simp [hfin])
            (by intro _; simp [hq])
          simpa [hq] using this
        | cons e tail =>
          have hstep : streamStep s .poll
              = { s with queue := tail, received := s.received ++ [e] } := by
            simp [streamStep, hfin, hw', hq]
          rw [hstep]
          have := ih { s with queue := tail, received := s.received ++ [e] } es hprod'
            (by simp [hdone]) (by simp [hfin]) (by intro hc; simp at hc; exact absurd hc hw)
          simpa [hq] using this
    | push e =>
      cases es with
      | nil => simp [prodActs, isProdAct] at hprod
      | cons e' es' =>
        have he : e = e' ∧ prodActs rest = es'.map StreamAct.push ++ [StreamAct.fin] := by
          simpa [prodActs, isProdAct] using hprod
        obtain ⟨rfl, hprod'⟩ := he
        rw [runActs_cons]
        by_cases hw : s.waiter = true
        · have hqnil : s.queue = [] := hwait hw
          have hstep : streamStep s (.push e)
              = { s with waiter := false, received := s.received ++ [e] } := by
            simp [streamStep, hw]
          rw [hstep]
          have := ih { s with waiter := false, received := s.received ++ [e] } es' hprod'
            (by simp [hdone]) (by simp [hfin]) (by intro hc; simp at hc)
          simpa [hqnil] using this
        · have hw' : s.waiter = false := by simpa using hw
          have hstep : streamStep s (.push e)
              = { s with queue := s.queue ++ [e] } := by
            simp [streamStep, hw']
          rw [hstep]
          have := ih { s with queue := s.queue ++ [e] } es' hprod'
            (by simp [hdone]) (by simp [hfin]) (by intro hc; simp at hc; exact absurd hc hw)
          simpa using this
    | fin =>
      cases es with
      | cons e' es' => simp [prodActs, isProdAct] at hprod
      | nil =>
        have hprod' : prodActs rest = [] := by
          simpa [prodActs, isProdAct] using hprod
        rw [runActs_cons]
        by_cases hw : s.waiter = true
        · have hqnil : s.queue = [] := hwait hw
          have hstep : streamStep s .fin
              = { s with done := true, waiter := false, finished := true } := by
            simp [streamStep, hw]
          rw [hstep]
          have := stream_run_polls rest
            { s with done := true, waiter := false, finished := true } hprod'
            (by simp) (by simp) (by intro _; simp [hqnil])
          simpa [hqnil] using this
        · have hw' : s.waiter = false := by simpa using hw
          have hstep : streamStep s .fin = { s with done := true } := by
            simp [streamStep, hw']
          rw [hstep]
          have := stream_run_polls rest { s with done := true } hprod'
            (by simp) (by simp [hw']) (by intro hc; simp [hfin] at hc)
          simpa using this

/-- Draining: once the producer is done, `queue.length + 1` further polls
deliver the whole buffer and end the iteration. -/
theorem pollRepeat_drains {T : Type} :
    ∀ (n : Nat) (s : StreamState T),
      s.done = true → s.waiter = false → (s.finished = true → s.queue = []) →
      s.queue.length + 1 ≤ n →
      (pollRepeat n s).received = s.received ++ s.queue ∧
      (pollRepeat n s).finished = true := by
  intro n
  induction n with
  | zero => intro s _ _ _ hlen; omega
  | succ n ih =>
    intro s hdone hwait hfin hlen
    by_cases hf : s.finished = true
    · have hq : s.queue = [] := hfin hf
      have hstep : streamStep s .poll = s := by simp [streamStep, hf]
      rw [pollRepeat_succ, hstep, pollRepeat_finished n s hf]
      simp [hq, hf]
    · cases hq : s.queue with
      | nil =>
        have hstep : streamStep s .poll = { s with finished := true } := by
          simp [streamStep, hf, hwait, hq, hdone]
        rw [pollRepeat_succ, hstep, pollRepeat_finished n _ (by simp)]
        simp [hq]
      | cons e tail =>
        have hstep : streamStep s .poll
            = { s with queue := tail, received := s.received ++ [e] } := by
          simp [streamStep, hf, hwait, hq]
        rw [pollRepeat_succ, hstep]
        have hlen' : tail.length + 1 ≤ n := by
          rw [hq] at hlen
          simp at hlen
          omega
        have := ih { s with queue := tail, received := s.received ++ [e] }
          (by simp [hdone]) (by simp [hwait]) (by simp [hf]) hlen'
        simpa [hq] using this

/-! ## Claim C8 -/

/-- **C8.**  For every interleaving whose producer pushes `e1 … en` and then
ends the stream, the single consumer (continuing to poll until termination)
receives exactly `e1 … en` in push order and its iteration then ends; and a
`push` never blocks: it immediately either hands the item over or buffers it
(the total count of held items grows by exactly one). -/
theorem c8_eventstream_order {T : Type} (es : List T) (acts : List (StreamAct T))
    (hacts : prodActs acts = es.map StreamAct.push ++ [StreamAct.fin]) :
    (pollRepeat ((runActs (streamInit T) acts).queue.length + 1)
        (runActs (streamInit T) acts)).received = es ∧
    (pollRepeat ((runActs (streamInit T) acts).queue.length + 1)
        (runActs (streamInit T) acts)).finished = true ∧
    (∀ (s : StreamState T) (e : T),
      (streamStep s (.push e)).received.length + (streamStep s (.push e)).queue.length
        = s.received.length + s.queue.length + 1) := by
  obtain ⟨hdone, hwait, hfin, hsum⟩ := stream_run_prod acts (streamInit T) es hacts rfl rfl
    (fun _ => rfl)
  obtain ⟨hrec, hfinal⟩ := pollRepeat_drains
    ((runActs (streamInit T) acts).queue.length + 1) (runActs (streamInit T) acts)
    hdone hwait hfin (Nat.le_refl _)
  refine ⟨?_, hfinal, ?_⟩
  · rw [hrec, hsum]
    rfl
  · intro s e
    by_cases hw : s.waiter = true
    · simp [streamStep, hw]
      omega
    · have hw' : s.waiter = false := by simpa using hw
      simp [streamStep, hw']
      omega

/-- **C8, witness**: pushes of 1, 2, 3 interleaved with consumer polls. -/
theorem c8_witness :
    (pollRepeat
        ((runActs (streamInit Nat)
            [.push 1, .poll, .poll, .push 2, .push 3, .fin, .poll]).queue.length + 1)
        (runActs (streamInit Nat)
            [.push 1, .poll, .poll, .push 2, .push 3, .fin, .poll])).received
      = [1, 2, 3] :=
  (c8_eventstream_order [1, 2, 3]
    [.push 1, .poll, .poll, .push 2, .push 3, .fin, .poll] (by decide)).1

/-! ## Claim C9 -/

/-- **C9.**  `get(sessionId)`: a cached, unexpired id returns the cached
kernel instance, refreshed to the most-recently-used position with its TTL
restarted; an absent id constructs the kernel from the persisted session,
stores it at the most-recently-used position, and (given a positive maximum)
keeps the cache within the size bound; a TTL-expired id behaves exactly like
a cold miss; and on overflow the evicted entry is the least-recently-used
head. -/
theorem c9_cache_get_lru_ttl (c : KernelCacheM) (disk : String → List StoredEntry)
    (sid : String) (now : Nat) :
    (∀ en, c.entries.find? (fun x => x.key == sid) = some en →
      now ≤ en.lastAccess + c.ttl →
      (c.get disk sid now).1 = en.kernel ∧
      (c.get disk sid now).2.entries
        = c.entries.filter (fun x => !(x.key == sid))
          ++ [{ key := sid, kernel := en.kernel, lastAccess := now }]) ∧
    (c.entries.find? (fun x => x.key == sid) = none →
      (c.get disk sid now).1 = Kernel.loadFromFile (disk sid) ∧
      (1 ≤ c.maxSize →
        (c.get disk sid now).2.entries.getLast?
          = some { key := sid, kernel := Kernel.loadFromFile (disk sid), lastAccess := now }) ∧
      (c.entries.length ≤ c.maxSize →
        (c.get disk sid now).2.entries.length ≤ c.maxSize)) ∧
    (∀ en, c.entries.find? (fun x => x.key == sid) = some en →
      ¬(now ≤ en.lastAccess + c.ttl) →
      (c.get disk sid now).1 = Kernel.loadFromFile (disk sid)) ∧
    (∀ v rest, c.entries = v :: rest →
      c.entries.find? (fun x => x.key == sid) = none →
      c.entries.length = c.maxSize →
      (c.get disk sid now).2.entries
        = rest ++ [{ key := sid, kernel := Kernel.loadFromFile (disk sid), lastAccess := now }]) := by
  have hfilter_of_none :
      c.entries.find? (fun x => x.key == sid) = none →
      c.entries.filter (fun x => !(x.key == sid)) = c.entries := by
    intro hn
    apply List.filter_eq_self.mpr
    intro x hx
    have := List.find?_eq_none.mp hn x hx
    simpa using this
  refine ⟨?_, ?_, ?_, ?_⟩
  · intro en hfind httl
    constructor
    · simp [KernelCacheM.get, hfind, httl]
    · simp [KernelCacheM.get, hfind, httl]
  · intro hnone
    have hfe := hfilter_of_none hnone
    refine ⟨?_, ?_, ?_⟩
    · simp [KernelCacheM.get, hnone, KernelCacheM.insertMiss]
    · intro hmax
      simp only [KernelCacheM.get, hnone, KernelCacheM.insertMiss, hfe]
      by_cases hlen : c.maxSize < (c.entries ++
          [({ key := sid, kernel := Kernel.loadFromFile (disk sid), lastAccess := now }
            : CacheEntry)]).length
      · rw [if_pos hlen]
        have hne : c.entries ≠ [] := by
          intro hnil
          rw [hnil] at hlen
          simp at hlen
          omega
        obtain ⟨v, rest, hvr⟩ := List.exists_cons_of_ne_nil hne
        rw [hvr]
        simp [List.getLast?_concat]
      · rw [if_neg hlen]
        simp [List.getLast?_concat]
    · intro hsize
      simp only [KernelCacheM.get, hnone, KernelCacheM.insertMiss, hfe]
      by_cases hlen : c.maxSize < (c.entries ++
          [({ key := sid, kernel := Kernel.loadFromFile (disk sid), lastAccess := now }
            : CacheEntry)]).length
      · rw [if_pos hlen]
        simp at hlen ⊢
        omega
      · rw [if_neg hlen]
        simp at hlen ⊢
        omega
  · intro en hfind httl
    simp [KernelCacheM.get, hfind, httl, KernelCacheM.insertMiss]
  · intro v rest hvr hnone hsize
    have hfe := hfilter_of_none hnone
    have hlen2 : c.maxSize = rest.length + 1 := by
      rw [← hsize, hvr]
      simp
    simp only [KernelCacheM.get, hnone, KernelCacheM.insertMiss, hfe]
    rw [hvr]
    rw [if_pos (by simp [List.length_append]; omega)]
    simp

/-- **C9, witness**: a one-slot cache holding session `s1`; reading `s1`
within the TTL returns the cached instance refreshed, and reading `s2`
evicts `s1`. -/
theorem c9_witness :
    (KernelCacheM.get ⟨[⟨"s1", createKernel, 100⟩], 1, 50⟩ (fun _ => []) "s1" 120).1
      = createKernel ∧
    (KernelCacheM.get ⟨[⟨"s1", createKernel, 100⟩], 1, 50⟩ (fun _ => []) "s2" 120).2.entries
      = [⟨"s2", Kernel.loadFromFile [], 120⟩] :=
  ⟨((c9_cache_get_lru_ttl ⟨[⟨"s1", createKernel, 100⟩], 1, 50⟩ (fun _ => []) "s1" 120).1
      ⟨"s1", createKernel, 100⟩ (by decide) (by decide)).1,
    (c9_cache_get_lru_ttl ⟨[⟨"s1", createKernel, 100⟩], 1, 50⟩ (fun _ => []) "s2" 120).2.2.2
      ⟨"s1", createKernel, 100⟩ [] rfl (by decide) (by decide)⟩

end AgentKernel
